import Mathlib

/-! # RandomC: a shallow embedding of `random.h`

`random.h` is a header-only pseudo-random number library: a xorshift128+
bit generator, a uniform float in [0,1), a Box-Muller normal sample with a
one-sample cache, and two integer-in-range operations.

Conventions of the embedding.

* `uint64_t` values are natural numbers, every operation that can leave the
  64-bit range is followed by an explicit `% 2 ^ 64`.
* `int` is the 32-bit two's complement type of the platforms the header
  targets; values are integers, and a result that leaves the range is
  reduced by `wrap32` (what the hardware does on overflow and on the
  narrowing conversions `(int)x`).
* Function-local `static` variables are fields of `Globals`; every
  operation takes the storage and returns the updated storage.
* The readings taken by `xorshift128p_seed` (clock, counter, stack
  address) are the explicit argument `SeedEnv`.
* The value of a `float` that is produced by `random_float` is an exact
  dyadic rational; it is represented by its numerator over `2 ^ 53`.
* `random_normal` is written over an arithmetic `FloatOps`. Its binary32
  instance `ieeeOps` has the IEEE-754 operations (round to nearest, ties to
  even, signed zeros, infinities, not-a-number, gradual underflow) on the
  data `F32`; the library functions `logf` and `sqrtf` are parameters of it.
-/

namespace RandomC

/-! ## Generator core -/

/-- The struct `xorshift128p_state`: two 64-bit words `state[0]`, `state[1]`. -/
structure xorshift128p_state where
  state0 : Nat
  state1 : Nat
deriving DecidableEq

/-- Both words are in the range of `uint64_t`. -/
def xorshift128p_state.wf (s : xorshift128p_state) : Prop :=
  s.state0 < 2 ^ 64 ∧ s.state1 < 2 ^ 64

instance (s : xorshift128p_state) : Decidable s.wf := by
  unfold xorshift128p_state.wf; infer_instance

/-- What `xorshift128p_seed` reads from its surroundings: `time(NULL)`, the
high-resolution counter (`counter.QuadPart`, or `ts.tv_nsec`), and the address
`&seed` of its local variable, each as the unsigned value it converts to. -/
structure SeedEnv where
  time : Nat
  counter : Nat
  addr : Nat
deriving DecidableEq

/-- The multiplier `11400714819323198485ULL` of the counter term. -/
def counterMul : Nat := 11400714819323198485

/-- The multiplier `0x9E3779B97F4A7C15` of the address term. -/
def addrMul : Nat := 0x9E3779B97F4A7C15

/-- The constant `0x6A09E667F3BCC909` separating the two state words. -/
def stateXor : Nat := 0x6A09E667F3BCC909

/-- The local `seed` of `xorshift128p_seed` after the three mixing steps. -/
def seedValue (t c a : Nat) : Nat :=
  let seed := t % 2 ^ 64
  let seed := seed ^^^ ((((c % 2 ^ 64) * counterMul) % 2 ^ 64) >>> 32)
  seed ^^^ (((a % 2 ^ 64) * addrMul) % 2 ^ 64)

/-- The function `xorshift128p_seed`: the state it stores. -/
def xorshift128p_seed (t c a : Nat) : xorshift128p_state :=
  let seed := seedValue t c a
  { state0 := seed, state1 := seed ^^^ stateXor }

/-- The function `xorshift128p_next`: returned value and updated state. -/
def xorshift128p_next (s : xorshift128p_state) : Nat × xorshift128p_state :=
  let s1 := s.state0
  let s0 := s.state1
  let s1 := s1 ^^^ ((s1 <<< 23) % 2 ^ 64)
  let n1 := s1 ^^^ s0 ^^^ (s1 >>> 17) ^^^ (s0 >>> 26)
  ((n1 + s0) % 2 ^ 64, { state0 := s0, state1 := n1 })

/-- The state after `n` calls of `xorshift128p_next`. -/
def advance : Nat → xorshift128p_state → xorshift128p_state
  | 0, s => s
  | n + 1, s => advance n (xorshift128p_next s).2

/-- The value returned by the call of `xorshift128p_next` that follows `n`
earlier calls (so `output 0 s` is the first value drawn from `s`). -/
def output (n : Nat) (s : xorshift128p_state) : Nat :=
  (xorshift128p_next (advance n s)).1

/-! ## Machine arithmetic of `int` and `float` -/

/-- Reduction of an integer to the 32-bit two's complement range of `int`. -/
def wrap32 (x : Int) : Int :=
  (x + 2 ^ 31) % 2 ^ 32 - 2 ^ 31

/-- The value is in the range of a 32-bit `int`. -/
def isInt32 (x : Int) : Prop :=
  -(2 ^ 31) ≤ x ∧ x < 2 ^ 31

instance (x : Int) : Decidable (isInt32 x) := by
  unfold isInt32; infer_instance

/-- Halving `n` until it is below 2, at most `fuel` times. -/
def log2Fuel : Nat → Nat → Nat
  | 0, _ => 0
  | fuel + 1, n => if n < 2 then 0 else log2Fuel fuel (n / 2) + 1

/-- The position of the leading bit of `n` (zero for `n = 0`). -/
def ilog2 (n : Nat) : Nat :=
  log2Fuel n n

/-- Rounding of a natural number to 24 significant bits, ties to even: the
IEEE-754 binary32 rounding of a magnitude in the normal range. -/
def roundNat24 (n : Nat) : Nat :=
  if n < 2 ^ 24 then n
  else
    let sh := ilog2 n - 23
    let q := n >>> sh
    let rem := n % 2 ^ sh
    let half := 2 ^ (sh - 1)
    let q := if half < rem ∨ (rem = half ∧ q % 2 = 1) then q + 1 else q
    q <<< sh

/-- Rounding to `float` of a signed magnitude (round to nearest, ties to even
is symmetric in the sign). -/
def roundInt24 (z : Int) : Int :=
  if z < 0 then -((roundNat24 z.natAbs : Nat) : Int) else ((roundNat24 z.natAbs : Nat) : Int)

/-- The `double` computed by `random_float` from a generator output `r`,
`(r >> 11) * (1.0 / (UINT64_C(1) << 53))`, as its numerator over `2 ^ 53`.
The shifted value has at most 53 bits and the factor is a power of two, so
the product is exact. -/
def uniformDouble (r : Nat) : Nat :=
  r >>> 11

/-- Rounding of a natural number to 53 significant bits, ties to even: the
IEEE-754 binary64 rounding of a magnitude in the normal range. -/
def roundNat53 (n : Nat) : Nat :=
  if n < 2 ^ 53 then n
  else
    let sh := ilog2 n - 52
    let q := n >>> sh
    let rem := n % 2 ^ sh
    let half := 2 ^ (sh - 1)
    let q := if half < rem ∨ (rem = half ∧ q % 2 = 1) then q + 1 else q
    q <<< sh

/-- The expression `(r >> 11) * (1.0 / (UINT64_C(1) << 53))` with the rounding
of its two `double` operations written out: the conversion of the shifted
integer to `double`, then the product with the power of two `2^-53` (the
quotient `1.0 / 2^53` is exact). The result is a numerator over `2 ^ 53`. -/
def uniformDoubleRounded (r : Nat) : Nat :=
  roundNat53 (roundNat53 (r >>> 11))

/-- The conversion of that `double` to the return type `float`, again as a
numerator over `2 ^ 53`. -/
def doubleToFloat (k : Nat) : Nat :=
  roundNat24 k

/-! ## Static storage -/

/-- The pair of statics `state`, `seeded` that `random_float` and
`random_int_high_precision` each declare. -/
structure Instance where
  state : xorshift128p_state
  seeded : Int
deriving DecidableEq

/-- All function-local statics of the header. `F` is the type of `float`
values held by `random_normal`. -/
structure Globals (F : Type) where
  /-- statics of `random_float` -/
  rf : Instance
  /-- static `n2` of `random_normal` -/
  n2 : F
  /-- static `n2_cached` of `random_normal` -/
  n2_cached : Int
  /-- statics of `random_int_high_precision` -/
  hp : Instance
deriving DecidableEq

/-- The block `if (!seeded) { xorshift128p_seed(&state); seeded = 1; }`. -/
def seedOnce (env : SeedEnv) (i : Instance) : Instance :=
  if i.seeded = 0 then
    { state := xorshift128p_seed env.time env.counter env.addr, seeded := 1 }
  else i

/-! ## User interface -/

/-- The function `random_float`: the returned `float` (numerator over
`2 ^ 53`) and the updated storage. -/
def random_float {F : Type} (env : SeedEnv) (g : Globals F) : Nat × Globals F :=
  let i := seedOnce env g.rf
  let (r, st) := xorshift128p_next i.state
  (doubleToFloat (uniformDouble r), { g with rf := { i with state := st } })

/-- The function `random_int`. The `float` product `random_float() * range`
is the rounded exact product; `(int)` truncates toward zero. -/
def random_int {F : Type} (env : SeedEnv) (g : Globals F) (min max : Int) : Int × Globals F :=
  let (min, max) := if min > max then (max, min) else (min, max)
  let range := wrap32 (max - min + 1)
  let (u, g) := random_float env g
  let prod := roundInt24 ((u : Int) * roundInt24 range)
  (wrap32 (wrap32 (Int.tdiv prod (2 ^ 53)) + min), g)

/-- The `uint64_t` value `(uint64_t)max - min + 1`. -/
def hpRange (min max : Int) : Nat :=
  ((((max % 2 ^ 64 - min % 2 ^ 64) % 2 ^ 64) + 1) % 2 ^ 64).toNat

/-- The value `UINT64_MAX - (UINT64_MAX % range)`. -/
def hpLimit (range : Nat) : Nat :=
  (2 ^ 64 - 1) - (2 ^ 64 - 1) % range

/-- The loop `do { r = xorshift128p_next(&state); } while (r >= limit);`,
bounded by `fuel` iterations. -/
def rejectLoop (limit : Nat) : Nat → xorshift128p_state → Option (Nat × xorshift128p_state)
  | 0, _ => none
  | fuel + 1, s =>
    let (r, s) := xorshift128p_next s
    if r ≥ limit then rejectLoop limit fuel s else some (r, s)

/-- The returned expression `(int)(r % range) + min`. -/
def hpResult (min : Int) (range r : Nat) : Int :=
  wrap32 (wrap32 ((r % range : Nat) : Int) + min)

/-- The function `random_int_high_precision`; `none` when the rejection loop
has not accepted a value within `fuel` iterations. -/
def random_int_high_precision {F : Type} (fuel : Nat) (env : SeedEnv) (g : Globals F)
    (min max : Int) : Option (Int × Globals F) :=
  let i := seedOnce env g.hp
  let g := { g with hp := i }
  let (min, max) := if min > max then (max, min) else (min, max)
  let range := hpRange min max
  if range = 0 then some (min, g)
  else
    let limit := hpLimit range
    match rejectLoop limit fuel i.state with
    | none => none
    | some (r, st) => some (hpResult min range r, { g with hp := { i with state := st } })

/-- The `float` arithmetic that `random_normal` is written in: the IEEE
operations and the library functions `sqrtf` and `logf`. -/
structure FloatOps (F : Type) where
  /-- the `float` of value `n / 2 ^ 53`, the form in which `random_float`
  hands over its result -/
  ofUniform : Nat → F
  /-- the constant `0.0f` -/
  zero : F
  /-- the constant `1.0f` -/
  one : F
  /-- the constant `2.0f` -/
  two : F
  /-- unary minus -/
  neg : F → F
  /-- product `a * b` -/
  mul : F → F → F
  /-- sum `a + b` -/
  add : F → F → F
  /-- difference `a - b` -/
  sub : F → F → F
  /-- quotient `a / b` -/
  div : F → F → F
  /-- the function `sqrtf` -/
  sqrtf : F → F
  /-- the function `logf` -/
  logf : F → F
  /-- comparison `a >= b` -/
  ge : F → F → Bool
  /-- comparison `a == b` -/
  eq : F → F → Bool

/-- The loop `do { x = ...; y = ...; r = x*x + y*y; } while (r >= 1.0f || r == 0.0f);`
of `random_normal`, bounded by `fuel` iterations; it yields `x`, `y`, `r`. -/
def polarLoop {F : Type} (ops : FloatOps F) (env : SeedEnv) :
    Nat → Globals F → Option (F × F × F × Globals F)
  | 0, _ => none
  | fuel + 1, g =>
    let (u, g) := random_float env g
    let x := ops.sub (ops.mul ops.two (ops.ofUniform u)) ops.one
    let (u, g) := random_float env g
    let y := ops.sub (ops.mul ops.two (ops.ofUniform u)) ops.one
    let r := ops.add (ops.mul x x) (ops.mul y y)
    if ops.ge r ops.one || ops.eq r ops.zero then polarLoop ops env fuel g
    else some (x, y, r, g)

/-- The factor `d = sqrtf(-2.0f * logf(r) / r)`. -/
def polarScale {F : Type} (ops : FloatOps F) (r : F) : F :=
  ops.sqrtf (ops.div (ops.mul (ops.neg ops.two) (ops.logf r)) r)

/-- The function `random_normal`; `none` when the rejection loop has not
accepted a point within `fuel` iterations. -/
def random_normal {F : Type} (ops : FloatOps F) (fuel : Nat) (env : SeedEnv) (g : Globals F)
    (mean stddev : F) : Option (F × Globals F) :=
  if g.n2_cached = 0 then
    match polarLoop ops env fuel g with
    | none => none
    | some (x, y, r, g) =>
      let d := polarScale ops r
      let g := { g with n2 := ops.mul y d, n2_cached := 1 }
      some (ops.add (ops.mul (ops.mul x d) stddev) mean, g)
  else
    let g := { g with n2_cached := 0 }
    some (ops.add (ops.mul g.n2 stddev) mean, g)

/-- The storage at program start: every static is zero-initialised. -/
def initialGlobals {F : Type} (ops : FloatOps F) : Globals F :=
  { rf := { state := { state0 := 0, state1 := 0 }, seeded := 0 },
    n2 := ops.zero, n2_cached := 0,
    hp := { state := { state0 := 0, state1 := 0 }, seeded := 0 } }

/-! ## Sequences of calls -/

/-- How many times the block `if (!seeded) { xorshift128p_seed(&state); seeded = 1; }`
calls `xorshift128p_seed` when entered with the statics `i`. -/
def seedCalls (i : Instance) : Nat :=
  if i.seeded = 0 then 1 else 0

/-- Successive calls of `random_float`, one per list entry (each entry holds
the readings a seeding in that call would take): the final storage and the
number of calls of `xorshift128p_seed` made on the way. -/
def floatCalls {F : Type} : List SeedEnv → Globals F → Globals F × Nat
  | [], g => (g, 0)
  | env :: es, g =>
    let (g1, n) := floatCalls es (random_float env g).2
    (g1, seedCalls g.rf + n)

/-- Successive calls of `random_int_high_precision`, one per list entry
(readings and the two bounds): the final storage and the number of calls of
`xorshift128p_seed` made on the way; `none` when a call does not return
within `fuel` iterations. -/
def hpCalls {F : Type} (fuel : Nat) : List (SeedEnv × Int × Int) → Globals F →
    Option (Globals F × Nat)
  | [], g => some (g, 0)
  | (env, a, b) :: cs, g =>
    match random_int_high_precision fuel env g a b with
    | none => none
    | some (_, g1) =>
      match hpCalls fuel cs g1 with
      | none => none
      | some (g2, n) => some (g2, seedCalls g.hp + n)

/-! ## A concrete arithmetic for running `random_normal` -/

/-- Integer square root, found bit by bit from bit 63 downwards. -/
def isqrt (n : Nat) : Nat :=
  (List.range 64).foldl
    (fun r i => if (r + 2 ^ (63 - i)) * (r + 2 ^ (63 - i)) ≤ n then r + 2 ^ (63 - i) else r) 0

/-- A fixed-point arithmetic with 53 fractional bits: the integer `z` stands
for `z / 2 ^ 53`. Product, quotient and square root truncate, and the
logarithm is rounded down to a multiple of `ln 2`. It is an instance of
`FloatOps` on which `random_normal` can be run on concrete inputs. -/
def fixedOps : FloatOps Int where
  ofUniform n := (n : Int)
  zero := 0
  one := 2 ^ 53
  two := 2 ^ 54
  neg a := -a
  mul a b := (a * b) / 2 ^ 53
  add a b := a + b
  sub a b := a - b
  div a b := if b = 0 then 0 else (a * 2 ^ 53) / b
  sqrtf a := ((isqrt (a.toNat * 2 ^ 53) : Nat) : Int)
  logf a := ((ilog2 a.toNat : Nat) - 53 : Int) * 6243314768165359
  ge a b := decide (a ≥ b)
  eq a b := decide (a = b)

/-! ## IEEE-754 binary32 arithmetic -/

/-- A binary32 datum. A finite value is a sign and a magnitude counted in
units of `2^-149`, the spacing of the subnormal numbers, so that every finite
`float` has a natural number as magnitude; `neg = true` is the minus sign. -/
inductive F32 where
  | nan : F32
  | inf (neg : Bool) : F32
  | fin (neg : Bool) (mag : Nat) : F32
deriving DecidableEq

/-- Rounding of the quotient `n / d` to a multiple of `2 ^ sh`, to nearest,
ties to even. -/
def roundAt (sh n d : Nat) : Nat :=
  let q := n / (d * 2 ^ sh)
  let rem := n % (d * 2 ^ sh)
  let q := if d * 2 ^ sh < 2 * rem ∨ (2 * rem = d * 2 ^ sh ∧ q % 2 = 1) then q + 1 else q
  q * 2 ^ sh

/-- Rounding of the quotient `n / d` (a magnitude in units of `2^-149`) to
binary32: 24 significant bits, and never finer than one unit, which is the
gradual underflow of the format. -/
def roundQuot (n d : Nat) : Nat :=
  roundAt (ilog2 (n / d) - 23) n d

/-- A rounded magnitude as a datum: magnitudes from `2^128` (`2^128 * 2^149` units) on
overflow to infinity. -/
def F32.ofRounded (neg : Bool) (m : Nat) : F32 :=
  if m < 2 ^ 128 * 2 ^ 149 then F32.fin neg m else F32.inf neg

/-- The datum is a `float`: not-a-number, an infinity, or a finite magnitude
below `2^128` that rounding leaves unchanged. -/
def F32.valid : F32 → Prop
  | F32.fin _ m => m < 2 ^ 128 * 2 ^ 149 ∧ roundQuot m 1 = m
  | _ => True

/-- The datum is finite. -/
def F32.finite : F32 → Prop
  | F32.fin _ m => m < 2 ^ 128 * 2 ^ 149
  | _ => False

/-- The datum is `+0.0f` or `-0.0f`. -/
def F32.isZero : F32 → Prop
  | F32.fin _ m => m = 0
  | _ => False

/-- Unary minus. -/
def F32.neg : F32 → F32
  | F32.nan => F32.nan
  | F32.inf s => F32.inf (!s)
  | F32.fin s m => F32.fin (!s) m

/-- The product `a * b`, rounded to nearest. -/
def F32.mul : F32 → F32 → F32
  | F32.nan, _ => F32.nan
  | _, F32.nan => F32.nan
  | F32.inf s, F32.inf t => F32.inf (xor s t)
  | F32.inf s, F32.fin t k => if k = 0 then F32.nan else F32.inf (xor s t)
  | F32.fin s m, F32.inf t => if m = 0 then F32.nan else F32.inf (xor s t)
  | F32.fin s m, F32.fin t k => F32.ofRounded (xor s t) (roundQuot (m * k) (2 ^ 149))

/-- The sum `a + b`, rounded to nearest; an exact zero sum of two opposite
values is `+0.0f`. -/
def F32.add : F32 → F32 → F32
  | F32.nan, _ => F32.nan
  | _, F32.nan => F32.nan
  | F32.inf s, F32.inf t => if s = t then F32.inf s else F32.nan
  | F32.inf s, F32.fin _ _ => F32.inf s
  | F32.fin _ _, F32.inf t => F32.inf t
  | F32.fin s m, F32.fin t k =>
    if s = t then F32.ofRounded s (roundQuot (m + k) 1)
    else if k < m then F32.ofRounded s (roundQuot (m - k) 1)
    else if m < k then F32.ofRounded t (roundQuot (k - m) 1)
    else F32.fin false 0

/-- The difference `a - b`. -/
def F32.sub (a b : F32) : F32 :=
  F32.add a (F32.neg b)

/-- The quotient `a / b`, rounded to nearest. -/
def F32.div : F32 → F32 → F32
  | F32.nan, _ => F32.nan
  | _, F32.nan => F32.nan
  | F32.inf _, F32.inf _ => F32.nan
  | F32.inf s, F32.fin t _ => F32.inf (xor s t)
  | F32.fin s _, F32.inf t => F32.fin (xor s t) 0
  | F32.fin s m, F32.fin t k =>
    if k = 0 then (if m = 0 then F32.nan else F32.inf (xor s t))
    else F32.ofRounded (xor s t) (roundQuot (m * 2 ^ 149) k)

/-- The position of a datum other than not-a-number on the number line, in
units of `2^-149`; both zeros are at 0 and the infinities lie beyond every
finite `float`. -/
def F32.key : F32 → Int
  | F32.nan => 0
  | F32.inf s => if s then -(2 ^ 128 * 2 ^ 149) else 2 ^ 128 * 2 ^ 149
  | F32.fin s m => if s then -(m : Int) else (m : Int)

/-- The comparison `a >= b`: false when an operand is not-a-number. -/
def F32.ge : F32 → F32 → Bool
  | F32.nan, _ => false
  | _, F32.nan => false
  | a, b => decide (b.key ≤ a.key)

/-- The comparison `a == b`: false when an operand is not-a-number, true for
two zeros of either sign. -/
def F32.eq : F32 → F32 → Bool
  | F32.nan, _ => false
  | _, F32.nan => false
  | a, b => decide (a.key = b.key)

/-- The binary32 arithmetic of `random_normal`. The operators are the IEEE
operations above; the library functions `logf` and `sqrtf` are parameters. -/
def ieeeOps (logf sqrtf : F32 → F32) : FloatOps F32 where
  ofUniform n := F32.fin false (n * 2 ^ 96)
  zero := F32.fin false 0
  one := F32.fin false (2 ^ 149)
  two := F32.fin false (2 ^ 150)
  neg := F32.neg
  mul := F32.mul
  add := F32.add
  sub := F32.sub
  div := F32.div
  sqrtf := sqrtf
  logf := logf
  ge := F32.ge
  eq := F32.eq

/-- What is assumed of the library: for a finite `0 < r < 1`, `logf(r)` is
finite, not positive, and at most 128 in magnitude; for a finite `q` that is
positive or a zero, `sqrtf(q)` is finite and at most `2^64` in magnitude. -/
def LibmOk (logf sqrtf : F32 → F32) : Prop :=
  (∀ m, 0 < m → m < 2 ^ 149 →
    ∃ s k, logf (F32.fin false m) = F32.fin s k ∧ k ≤ 2 ^ 156 ∧ (s = true ∨ k = 0)) ∧
  (∀ s m, m < 2 ^ 128 * 2 ^ 149 → (s = false ∨ m = 0) →
    ∃ t k, sqrtf (F32.fin s m) = F32.fin t k ∧ k ≤ 2 ^ 213)

/-- The datum is a finite multiple of `2^-52` of magnitude at most 1: the form
of the coordinates `2.0f * random_float() - 1.0f`. -/
def unitCoord (x : F32) : Prop :=
  ∃ s m, x = F32.fin s m ∧ m ≤ 2 ^ 149 ∧ 2 ^ 97 ∣ m

/-- The cache of `random_normal` is empty or holds a finite spare. -/
def cacheFinite (g : Globals F32) : Prop :=
  g.n2_cached = 0 ∨ g.n2.finite

/-- Two data are the same number: identical, or two zeros. -/
def F32.same (a b : F32) : Prop :=
  a = b ∨ (a.isZero ∧ b.isZero)

/-- One step of the bitwise integer square root: bit `i` is set when the
square stays within `n`. -/
def sqrtStep (n r i : Nat) : Nat :=
  if (r + 2 ^ i) * (r + 2 ^ i) ≤ n then r + 2 ^ i else r

/-- Bitwise integer square root over the bits below `bits`, from the top. -/
def isqrtBits : Nat → Nat → Nat → Nat
  | 0, _, r => r
  | bits + 1, n, r => isqrtBits bits n (sqrtStep n r bits)

/-- A stand-in for `sqrtf`: the rounded integer square root of the magnitude;
not-a-number for negative arguments. -/
def sqrtfModel : F32 → F32
  | F32.nan => F32.nan
  | F32.inf s => if s then F32.nan else F32.inf false
  | F32.fin s m =>
    if m = 0 then F32.fin s 0
    else if s then F32.nan
    else F32.ofRounded false (roundQuot (isqrtBits 214 (m * 2 ^ 149) 0) 1)

/-- A stand-in for `logf` on `0 < r < 1`: the binary exponent of `r` times
`ln 2` (as the `float` 11629080 / 2^24), rounded; zero elsewhere. -/
def logfModel : F32 → F32
  | F32.fin false m =>
    if 0 < m ∧ m < 2 ^ 149 then
      F32.ofRounded true (roundQuot ((149 - ilog2 m) * (11629080 * 2 ^ 125)) 1)
    else F32.fin false 0
  | _ => F32.nan

end RandomC

namespace RandomC

/-! ## Lemmas on the machine arithmetic -/

theorem wrap32_of_isInt32 {x : Int} (h : isInt32 x) : wrap32 x = x := by
  unfold isInt32 at h
  unfold wrap32
  omega

theorem wrap32_add_wrap32 (x y : Int) : wrap32 (wrap32 x + y) = wrap32 (x + y) := by
  unfold wrap32
  omega

theorem shiftRight_lt {x k : Nat} (n : Nat) (h : x < 2 ^ k) : x >>> n < 2 ^ k := by
  rw [Nat.shiftRight_eq_div_pow]
  exact lt_of_le_of_lt (Nat.div_le_self _ _) h

theorem seedValue_lt (t c a : Nat) : seedValue t c a < 2 ^ 64 := by
  unfold seedValue
  have h1 : t % 2 ^ 64 < 2 ^ 64 := Nat.mod_lt _ (by norm_num)
  have h2 : (((c % 2 ^ 64) * counterMul) % 2 ^ 64) >>> 32 < 2 ^ 64 :=
    shiftRight_lt 32 (Nat.mod_lt _ (by norm_num))
  have h3 : ((a % 2 ^ 64) * addrMul) % 2 ^ 64 < 2 ^ 64 := Nat.mod_lt _ (by norm_num)
  exact Nat.xor_lt_two_pow (Nat.xor_lt_two_pow h1 h2) h3

theorem xorshift128p_seed_wf (t c a : Nat) : (xorshift128p_seed t c a).wf := by
  refine ⟨seedValue_lt t c a, ?_⟩
  exact Nat.xor_lt_two_pow (seedValue_lt t c a) (by norm_num [stateXor])

theorem xorshift128p_next_wf {s : xorshift128p_state} (h : s.wf) :
    (xorshift128p_next s).2.wf := by
  obtain ⟨h0, h1⟩ := h
  have ht : s.state0 ^^^ ((s.state0 <<< 23) % 2 ^ 64) < 2 ^ 64 :=
    Nat.xor_lt_two_pow h0 (Nat.mod_lt _ (by norm_num))
  refine ⟨h1, ?_⟩
  exact Nat.xor_lt_two_pow (Nat.xor_lt_two_pow (Nat.xor_lt_two_pow ht h1) (shiftRight_lt 17 ht))
    (shiftRight_lt 26 h1)

theorem advance_wf {s : xorshift128p_state} (h : s.wf) (n : Nat) : (advance n s).wf := by
  induction n generalizing s with
  | zero => exact h
  | succ n ih => exact ih (xorshift128p_next_wf h)

theorem advance_succ_right (n : Nat) (s : xorshift128p_state) :
    advance (n + 1) s = (xorshift128p_next (advance n s)).2 := by
  induction n generalizing s with
  | zero => rfl
  | succ n ih => exact ih (xorshift128p_next s).2

/-- The first mixing step `s1 ^= s1 << 23` maps only zero to zero. -/
theorem mix23_eq_zero {a : Nat} (ha : a < 2 ^ 64) (h : a ^^^ ((a <<< 23) % 2 ^ 64) = 0) :
    a = 0 := by
  rw [Nat.xor_eq_zero, Nat.shiftLeft_eq] at h
  omega

/-- The second mixing step `s1 ^ (s1 >> 17)` maps only zero to zero. -/
theorem mix17_eq_zero {t : Nat} (h : t ^^^ (t >>> 17) = 0) : t = 0 := by
  rw [Nat.xor_eq_zero, Nat.shiftRight_eq_div_pow] at h
  omega

theorem xorshift128p_next_ne_zero {s : xorshift128p_state} (hwf : s.wf)
    (h : s ≠ { state0 := 0, state1 := 0 }) :
    (xorshift128p_next s).2 ≠ { state0 := 0, state1 := 0 } := by
  intro hz
  apply h
  obtain ⟨a, b⟩ := s
  obtain ⟨ha, _⟩ := hwf
  simp only [xorshift128p_next, xorshift128p_state.mk.injEq] at hz
  obtain ⟨hb, hn⟩ := hz
  subst hb
  simp only [Nat.xor_zero, Nat.zero_shiftRight] at hn
  have ht := mix17_eq_zero hn
  have := mix23_eq_zero ha ht
  subst this
  rfl

theorem xor_mod_two_pow (x y n : Nat) :
    (x ^^^ y) % 2 ^ n = (x % 2 ^ n) ^^^ (y % 2 ^ n) := by
  apply Nat.eq_of_testBit_eq
  intro i
  simp only [Nat.testBit_mod_two_pow, Nat.testBit_xor]
  cases decide (i < n) <;> simp

/-! ## The core step -/

/-- C5: on 64-bit words `(a, b)`, with `t = (a XOR (a << 23)) mod 2^64`, the
step `xorshift128p_next` stores `state[0] = b` and
`state[1] = t XOR b XOR (t >> 17) XOR (b >> 26)`, and returns
`(new state[1] + b) mod 2^64`; the new words are again 64-bit words. -/
theorem xorshift128p_next_spec (a b : Nat) (ha : a < 2 ^ 64) (hb : b < 2 ^ 64) :
    (xorshift128p_next { state0 := a, state1 := b }).2.state0 = b ∧
    (xorshift128p_next { state0 := a, state1 := b }).2.state1 =
      ((a ^^^ (a <<< 23)) % 2 ^ 64) ^^^ b ^^^ (((a ^^^ (a <<< 23)) % 2 ^ 64) >>> 17)
        ^^^ (b >>> 26) ∧
    (xorshift128p_next { state0 := a, state1 := b }).1 =
      ((xorshift128p_next { state0 := a, state1 := b }).2.state1 + b) % 2 ^ 64 ∧
    (xorshift128p_next { state0 := a, state1 := b }).2.state1 < 2 ^ 64 := by
  have ht : (a ^^^ (a <<< 23)) % 2 ^ 64 = a ^^^ ((a <<< 23) % 2 ^ 64) := by
    rw [xor_mod_two_pow, Nat.mod_eq_of_lt ha]
  refine ⟨rfl, ?_, rfl, ?_⟩
  · rw [ht]; rfl
  · have hwf : ({ state0 := a, state1 := b } : xorshift128p_state).wf := ⟨ha, hb⟩
    exact (xorshift128p_next_wf hwf).2

/-- Witness of C5 at the state `(1, 2)`. -/
theorem xorshift128p_next_spec_witness :
    (1 : Nat) < 2 ^ 64 ∧ (2 : Nat) < 2 ^ 64 ∧
    (xorshift128p_next { state0 := 1, state1 := 2 }).2.state0 = 2 ∧
    (xorshift128p_next { state0 := 1, state1 := 2 }).2.state1 =
      ((1 ^^^ (1 <<< 23)) % 2 ^ 64) ^^^ 2 ^^^ (((1 ^^^ (1 <<< 23)) % 2 ^ 64) >>> 17)
        ^^^ (2 >>> 26) ∧
    (xorshift128p_next { state0 := 1, state1 := 2 }).1 =
      ((xorshift128p_next { state0 := 1, state1 := 2 }).2.state1 + 2) % 2 ^ 64 ∧
    (xorshift128p_next { state0 := 1, state1 := 2 }).2.state1 < 2 ^ 64 :=
  ⟨by norm_num, by norm_num, xorshift128p_next_spec 1 2 (by norm_num) (by norm_num)⟩

/-- C7: the state stored by `xorshift128p_seed` is never `(0, 0)`, whatever the
clock, counter and address readings, and no number of `xorshift128p_next`
steps leads from it to `(0, 0)`. -/
theorem seeded_state_never_zero (t c a n : Nat) :
    advance n (xorshift128p_seed t c a) ≠ { state0 := 0, state1 := 0 } := by
  induction n with
  | zero =>
    intro h
    simp only [advance, xorshift128p_seed, xorshift128p_state.mk.injEq] at h
    obtain ⟨h0, h1⟩ := h
    rw [h0] at h1
    revert h1
    decide
  | succ n ih =>
    rw [advance_succ_right]
    exact xorshift128p_next_ne_zero (advance_wf (xorshift128p_seed_wf t c a) n) ih

/-! ## Uniform float and fast integer range -/

theorem random_float_fst {F : Type} (env : SeedEnv) (g : Globals F) :
    (random_float env g).1 =
      doubleToFloat (uniformDouble (xorshift128p_next (seedOnce env g.rf).state).1) :=
  rfl

theorem random_int_fst {F : Type} (env : SeedEnv) (g : Globals F) (lo : Int) :
    (random_int env g lo lo).1 =
      wrap32 (wrap32 (Int.tdiv (roundInt24 (((random_float env g).1 : Int) *
        roundInt24 (wrap32 (lo - lo + 1)))) (2 ^ 53)) + lo) := by
  simp [random_int]

theorem log2Fuel_eq (e : Nat) :
    ∀ fuel n : Nat, e < fuel → 2 ^ e ≤ n → n < 2 ^ (e + 1) → log2Fuel fuel n = e := by
  induction e with
  | zero =>
    intro fuel n hf h1 h2
    obtain ⟨f, rfl⟩ : ∃ f, fuel = f + 1 := ⟨fuel - 1, by omega⟩
    have : n < 2 := by simpa using h2
    simp [log2Fuel, this]
  | succ e ih =>
    intro fuel n hf h1 h2
    obtain ⟨f, rfl⟩ : ∃ f, fuel = f + 1 := ⟨fuel - 1, by omega⟩
    have hpos : 0 < 2 ^ e := Nat.pos_pow_of_pos e (by norm_num)
    have e1 : 2 ^ (e + 1) = 2 * 2 ^ e := by ring
    have e2 : 2 ^ (e + 1 + 1) = 2 * (2 * 2 ^ e) := by ring
    rw [e1] at h1
    rw [e2] at h2
    have hn : ¬ n < 2 := by omega
    have hrec := ih f (n / 2) (by omega) (by omega) (by rw [e1]; omega)
    simp [log2Fuel, hn, hrec]

theorem ilog2_eq {e n : Nat} (h1 : 2 ^ e ≤ n) (h2 : n < 2 ^ (e + 1)) : ilog2 n = e :=
  log2Fuel_eq e n n (lt_of_lt_of_le (Nat.lt_two_pow e) h1) h1 h2

/-- Rounding to 24 significant bits does not carry a value below `2 ^ m`
beyond `2 ^ m`. -/
theorem roundNat24_le_two_pow {k m : Nat} (hk : k < 2 ^ m) : roundNat24 k ≤ 2 ^ m := by
  by_cases h24 : k < 2 ^ 24
  · simp only [roundNat24, h24, if_true]
    exact hk.le
  · have hk0 : k ≠ 0 := by
      intro h0
      rw [h0] at h24
      norm_num at h24
    have hlo : 2 ^ k.log2 ≤ k := Nat.log2_self_le hk0
    have hhi : k < 2 ^ (k.log2 + 1) := Nat.lt_log2_self
    have hlog : ilog2 k = k.log2 := ilog2_eq hlo hhi
    have he24 : 24 ≤ k.log2 + 1 := by
      by_contra hcon
      have : 2 ^ (k.log2 + 1) ≤ 2 ^ 24 := Nat.pow_le_pow_right (by norm_num) (by omega)
      omega
    have hem : k.log2 + 1 ≤ m := by
      by_contra hcon
      have : 2 ^ m ≤ 2 ^ k.log2 := Nat.pow_le_pow_right (by norm_num) (by omega)
      omega
    have hsplit : 2 ^ (k.log2 + 1) = 2 ^ 24 * 2 ^ (k.log2 - 23) := by
      rw [← Nat.pow_add]
      congr 1
      omega
    have hshpos : 0 < 2 ^ (k.log2 - 23) := Nat.pos_pow_of_pos _ (by norm_num)
    have hq : k / 2 ^ (k.log2 - 23) < 2 ^ 24 := by
      rw [Nat.div_lt_iff_lt_mul hshpos, ← hsplit]
      exact hhi
    have hfin : ∀ q, q ≤ 2 ^ 24 → q * 2 ^ (k.log2 - 23) ≤ 2 ^ m := by
      intro q hq'
      calc q * 2 ^ (k.log2 - 23) ≤ 2 ^ 24 * 2 ^ (k.log2 - 23) := Nat.mul_le_mul_right _ hq'
        _ = 2 ^ (k.log2 + 1) := hsplit.symm
        _ ≤ 2 ^ m := Nat.pow_le_pow_right (by norm_num) hem
    simp only [roundNat24, h24, if_false, hlog, Nat.shiftRight_eq_div_pow, Nat.shiftLeft_eq]
    split_ifs
    · exact hfin _ (by omega)
    · exact hfin _ (by omega)

/-- The narrowing conversion in `random_float` yields 1.0 (numerator `2 ^ 53`)
exactly for the generator outputs `r >= 2^64 - 2^39`. -/
theorem random_float_one_iff (r : Nat) (hr : r < 2 ^ 64) :
    doubleToFloat (uniformDouble r) = 2 ^ 53 ↔ 2 ^ 64 - 2 ^ 39 ≤ r := by
  unfold doubleToFloat uniformDouble
  rw [Nat.shiftRight_eq_div_pow]
  generalize hk : r / 2 ^ 11 = k
  have hk53 : k < 2 ^ 53 := by omega
  have hiff : 2 ^ 64 - 2 ^ 39 ≤ r ↔ 2 ^ 53 - 2 ^ 28 ≤ k := by omega
  rw [hiff]
  by_cases h52 : 2 ^ 52 ≤ k
  · have hlog : ilog2 k = 52 := ilog2_eq h52 hk53
    have h24 : ¬ k < 2 ^ 24 := by omega
    simp only [roundNat24, h24, if_false, hlog, Nat.shiftRight_eq_div_pow, Nat.shiftLeft_eq]
    norm_num
    split_ifs with hc <;> omega
  · have hle : roundNat24 k ≤ 2 ^ 52 := roundNat24_le_two_pow (by omega)
    omega

/-- The value returned by `random_float` never exceeds 1.0. -/
theorem random_float_le_one (r : Nat) (hr : r < 2 ^ 64) :
    doubleToFloat (uniformDouble r) ≤ 2 ^ 53 := by
  unfold doubleToFloat uniformDouble
  rw [Nat.shiftRight_eq_div_pow]
  exact roundNat24_le_two_pow (by omega)

/-- C1 (the code breaks it): with the readings `time = 1793337600`,
`counter = 21827`, `&seed = 140725882410764` the first call of `random_float`
returns the numerator `2 ^ 53`, that is the `float` 1.0, outside `[0, 1)`. -/
theorem random_float_returns_one {F : Type} (g : Globals F) :
    (random_float { time := 1793337600, counter := 21827, addr := 140725882410764 }
      { g with rf := { state := { state0 := 0, state1 := 0 }, seeded := 0 } }).1 = 2 ^ 53 := by
  rw [random_float_fst]
  show doubleToFloat (uniformDouble (xorshift128p_next (seedOnce
    { time := 1793337600, counter := 21827, addr := 140725882410764 }
    { state := { state0 := 0, state1 := 0 }, seeded := 0 }).state).1) = 2 ^ 53
  decide

/-- C3 (the code breaks it): with the same readings the first call
`random_int(0, 0)` returns `1`, outside `[0, 0]`. -/
theorem random_int_out_of_range {F : Type} (g : Globals F) :
    (random_int { time := 1793337600, counter := 21827, addr := 140725882410764 }
      { g with rf := { state := { state0 := 0, state1 := 0 }, seeded := 0 } } 0 0).1 = 1 := by
  rw [random_int_fst, random_float_fst]
  show wrap32 (wrap32 (Int.tdiv (roundInt24 (((doubleToFloat (uniformDouble (xorshift128p_next
    (seedOnce { time := 1793337600, counter := 21827, addr := 140725882410764 }
      { state := { state0 := 0, state1 := 0 }, seeded := 0 }).state).1) : Nat) : Int) *
        roundInt24 (wrap32 (0 - 0 + 1)))) (2 ^ 53)) + 0) = 1
  decide

/-- C6: `random_int` and `random_int_high_precision` do not depend on the order
of their two bounds: from the same storage, `(a, b)` and `(b, a)` give the
same value and the same updated storage. -/
theorem int_range_order_independent {F : Type} (fuel : Nat) (env : SeedEnv) (g : Globals F)
    (a b : Int) :
    random_int env g a b = random_int env g b a ∧
    random_int_high_precision fuel env g a b = random_int_high_precision fuel env g b a := by
  rcases lt_trichotomy a b with h | h | h
  · have h1 : ¬ a > b := by omega
    have h2 : b > a := h
    simp only [random_int, random_int_high_precision, h1, h2, if_true, if_false]
    exact ⟨trivial, trivial⟩
  · subst h
    exact ⟨rfl, rfl⟩
  · have h1 : ¬ b > a := by omega
    have h2 : a > b := h
    simp only [random_int, random_int_high_precision, h1, h2, if_true, if_false]
    exact ⟨trivial, trivial⟩

/-! ## High-precision integer range -/

theorem hpRange_eq {lo hi : Int} (hlo : isInt32 lo) (hhi : isInt32 hi) (h : lo ≤ hi) :
    ((hpRange lo hi : Nat) : Int) = hi - lo + 1 := by
  unfold isInt32 at hlo hhi
  unfold hpRange
  rw [Int.toNat_of_nonneg (by omega)]
  omega

theorem hpRange_pos {lo hi : Int} (hlo : isInt32 lo) (hhi : isInt32 hi) (h : lo ≤ hi) :
    0 < hpRange lo hi := by
  have := hpRange_eq hlo hhi h
  omega

theorem hpResult_eq {lo hi : Int} (hlo : isInt32 lo) (hhi : isInt32 hi) (h : lo ≤ hi) (r : Nat) :
    hpResult lo (hpRange lo hi) r = ((r % hpRange lo hi : Nat) : Int) + lo := by
  have hr := hpRange_eq hlo hhi h
  have hlt : r % hpRange lo hi < hpRange lo hi := Nat.mod_lt _ (hpRange_pos hlo hhi h)
  unfold hpResult
  rw [wrap32_add_wrap32]
  apply wrap32_of_isInt32
  unfold isInt32 at *
  omega

theorem hp_swap {F : Type} (fuel : Nat) (env : SeedEnv) (g : Globals F) (a b : Int) :
    random_int_high_precision fuel env g a b =
      random_int_high_precision fuel env g (min a b) (max a b) := by
  rcases le_or_lt a b with h | h
  · rw [min_eq_left h, max_eq_right h]
  · have h1 : ¬ a > b → False := fun hn => hn h
    have h2 : ¬ b > a := by omega
    rw [min_eq_right h.le, max_eq_left h.le]
    simp only [random_int_high_precision, h2, if_false, gt_iff_lt, h, if_true]

theorem hp_ordered {F : Type} (fuel : Nat) (env : SeedEnv) (g : Globals F) {lo hi : Int}
    (h : lo ≤ hi) (hr : hpRange lo hi ≠ 0) :
    random_int_high_precision fuel env g lo hi =
      match rejectLoop (hpLimit (hpRange lo hi)) fuel (seedOnce env g.hp).state with
      | none => none
      | some (r, st) =>
        some (hpResult lo (hpRange lo hi) r,
          { g with hp := { seedOnce env g.hp with state := st } }) := by
  have h1 : ¬ lo > hi := by omega
  simp only [random_int_high_precision, h1, if_false, hr]

theorem rejectLoop_first (limit : Nat) (k : Nat) :
    ∀ (fuel : Nat) (s : xorshift128p_state), k < fuel → output k s < limit →
      (∀ j, j < k → limit ≤ output j s) →
      rejectLoop limit fuel s = some (output k s, advance (k + 1) s) := by
  induction k with
  | zero =>
    intro fuel s hf hk _
    obtain ⟨f, rfl⟩ : ∃ f, fuel = f + 1 := ⟨fuel - 1, by omega⟩
    have hk' : ¬ (xorshift128p_next s).1 ≥ limit := by
      simpa [output, advance] using hk
    simp only [rejectLoop, hk', if_false]
    rfl
  | succ k ih =>
    intro fuel s hf hk hrej
    obtain ⟨f, rfl⟩ : ∃ f, fuel = f + 1 := ⟨fuel - 1, by omega⟩
    have h0 : (xorshift128p_next s).1 ≥ limit := hrej 0 (by omega)
    simp only [rejectLoop, h0, if_true]
    exact ih f (xorshift128p_next s).2 (by omega) hk (fun j hj => hrej (j + 1) (by omega))

/-- C2: for 32-bit bounds in either order, a value returned by
`random_int_high_precision` lies between the smaller and the larger bound;
equal bounds give that bound. -/
theorem hp_in_range {F : Type} (fuel : Nat) (env : SeedEnv) (g : Globals F) (a b : Int)
    (ha : isInt32 a) (hb : isInt32 b) (res : Int × Globals F)
    (h : random_int_high_precision fuel env g a b = some res) :
    min a b ≤ res.1 ∧ res.1 ≤ max a b ∧ (a = b → res.1 = a) := by
  have hlo : isInt32 (min a b) := by rcases min_choice a b with e | e <;> rw [e] <;> assumption
  have hhi : isInt32 (max a b) := by rcases max_choice a b with e | e <;> rw [e] <;> assumption
  have hle : min a b ≤ max a b := min_le_max
  have hpos := hpRange_pos hlo hhi hle
  have hrange := hpRange_eq hlo hhi hle
  rw [hp_swap, hp_ordered fuel env g hle (by omega)] at h
  have key : min a b ≤ res.1 ∧ res.1 ≤ max a b := by
    cases hloop : rejectLoop (hpLimit (hpRange (min a b) (max a b))) fuel
        (seedOnce env g.hp).state with
    | none => rw [hloop] at h; simp at h
    | some p =>
      obtain ⟨r, st⟩ := p
      rw [hloop] at h
      simp only [Option.some.injEq] at h
      subst h
      have hlt : r % hpRange (min a b) (max a b) < hpRange (min a b) (max a b) :=
        Nat.mod_lt _ hpos
      simp only [hpResult_eq hlo hhi hle]
      omega
  refine ⟨key.1, key.2, ?_⟩
  intro hab
  subst hab
  simp only [min_self, max_self] at key
  omega

/-- Witness of C2: the first call `random_int_high_precision(0, 99)` of a
program that reads `time = 1793337600`, `counter = 21828`,
`&seed = 140725882410764` returns 18. -/
theorem hp_in_range_witness :
    isInt32 0 ∧ isInt32 99 ∧
    random_int_high_precision 5
      { time := 1793337600, counter := 21828, addr := 140725882410764 }
      ({ rf := { state := { state0 := 0, state1 := 0 }, seeded := 0 }, n2 := (), n2_cached := 0,
         hp := { state := { state0 := 0, state1 := 0 }, seeded := 0 } } : Globals Unit) 0 99 =
      some (18, { rf := { state := { state0 := 0, state1 := 0 }, seeded := 0 }, n2 := (),
                  n2_cached := 0,
                  hp := { state := { state0 := 5666895925977677692,
                                     state1 := 12757509416305861226 }, seeded := 1 } }) ∧
    (min 0 99 ≤ (18 : Int) ∧ (18 : Int) ≤ max 0 99 ∧ ((0 : Int) = 99 → (18 : Int) = 0)) :=
  ⟨by decide, by decide, by decide,
    hp_in_range 5 { time := 1793337600, counter := 21828, addr := 140725882410764 }
      ({ rf := { state := { state0 := 0, state1 := 0 }, seeded := 0 }, n2 := (), n2_cached := 0,
         hp := { state := { state0 := 0, state1 := 0 }, seeded := 0 } } : Globals Unit) 0 99
      (by decide) (by decide)
      (18, { rf := { state := { state0 := 0, state1 := 0 }, seeded := 0 }, n2 := (),
             n2_cached := 0,
             hp := { state := { state0 := 5666895925977677692,
                                state1 := 12757509416305861226 }, seeded := 1 } })
      (by decide)⟩

/-- C10: for ordered 32-bit bounds, if draw number `k + 1` from the
generator state of `random_int_high_precision` is the first one below
`limit` (the `k` earlier draws are all `>= limit`), then the function returns
that draw modulo `range` plus `min`, and leaves the generator advanced by
exactly `k + 1` steps; nothing else in the storage changes. -/
theorem hp_rejection_loop {F : Type} (fuel k : Nat) (env : SeedEnv) (g : Globals F)
    (lo hi : Int) (hlo : isInt32 lo) (hhi : isInt32 hi) (h : lo ≤ hi) (hfuel : k < fuel)
    (hacc : output k (seedOnce env g.hp).state < hpLimit (hpRange lo hi))
    (hrej : ∀ j, j < k → hpLimit (hpRange lo hi) ≤ output j (seedOnce env g.hp).state) :
    random_int_high_precision fuel env g lo hi =
      some (((output k (seedOnce env g.hp).state % hpRange lo hi : Nat) : Int) + lo,
        { g with hp := { state := advance (k + 1) (seedOnce env g.hp).state,
                         seeded := (seedOnce env g.hp).seeded } }) := by
  have hpos := hpRange_pos hlo hhi h
  rw [hp_ordered fuel env g h (by omega), rejectLoop_first _ k fuel _ hfuel hacc hrej]
  simp only [hpResult_eq hlo hhi h]

/-- Witness of C10: from the state `(567594222891294720, 0)` the first draw is
`2^64 - 1`, rejected for the bounds `(0, 6)`; the second draw is accepted. -/
theorem hp_rejection_loop_witness :
    isInt32 0 ∧ isInt32 6 ∧
    hpLimit (hpRange 0 6) ≤ output 0 { state0 := 567594222891294720, state1 := 0 } ∧
    output 1 { state0 := 567594222891294720, state1 := 0 } < hpLimit (hpRange 0 6) ∧
    random_int_high_precision 2 { time := 0, counter := 0, addr := 0 }
      ({ rf := { state := { state0 := 0, state1 := 0 }, seeded := 0 }, n2 := (), n2_cached := 0,
         hp := { state := { state0 := 567594222891294720, state1 := 0 }, seeded := 1 } } :
        Globals Unit) 0 6 =
      some (((output 1 { state0 := 567594222891294720, state1 := 0 } % hpRange 0 6 : Nat) : Int)
          + 0,
        { rf := { state := { state0 := 0, state1 := 0 }, seeded := 0 }, n2 := (), n2_cached := 0,
          hp := { state := advance 2 { state0 := 567594222891294720, state1 := 0 },
                  seeded := 1 } }) :=
  ⟨by decide, by decide, by decide, by decide,
    hp_rejection_loop 2 1 { time := 0, counter := 0, addr := 0 }
      ({ rf := { state := { state0 := 0, state1 := 0 }, seeded := 0 }, n2 := (), n2_cached := 0,
         hp := { state := { state0 := 567594222891294720, state1 := 0 }, seeded := 1 } } :
        Globals Unit) 0 6 (by decide) (by decide) (by decide) (by decide) (by decide)
      (by
        intro j hj
        obtain rfl : j = 0 := by omega
        decide)⟩

/-- The accepted window `[0, limit)` is a whole number of blocks of `range`. -/
theorem hpLimit_mod (range : Nat) : hpLimit range % range = 0 := by
  unfold hpLimit
  exact Nat.sub_mod_eq_zero_of_mod_eq (Nat.mod_mod _ _).symm

theorem card_filter_mod_eq {range : Nat} (hpos : 0 < range) (b j : Nat) (hb : b % range = 0)
    (hj : j < range) :
    ((Finset.range b).filter (fun r => r % range = j)).card = b / range := by
  have hcount := Nat.count_modEq_card b hpos j
  rw [Nat.count_eq_card_filter_range, hb] at hcount
  simp only [Nat.not_lt_zero, if_false, Nat.add_zero] at hcount
  rw [← hcount]
  congr 1
  apply Finset.filter_congr
  intro r _
  unfold Nat.ModEq
  rw [Nat.mod_eq_of_lt hj]

/-- C4: `random_int_high_precision` has no modulo bias. For 32-bit bounds
`min <= max` and every target `v` in `[min, max]`, exactly `limit / range` of
the accepted raw draws `r < limit` are mapped to `v`, both by the returned
expression `(int)(r % range) + min` and by `(r mod range) + min`. -/
theorem hp_no_modulo_bias (lo hi v : Int) (hlo : isInt32 lo) (hhi : isInt32 hi)
    (hv : lo ≤ v ∧ v ≤ hi) :
    ((Finset.range (hpLimit (hpRange lo hi))).filter
        (fun r => hpResult lo (hpRange lo hi) r = v)).card =
      hpLimit (hpRange lo hi) / hpRange lo hi ∧
    ((Finset.range (hpLimit (hpRange lo hi))).filter
        (fun r => ((r % hpRange lo hi : Nat) : Int) + lo = v)).card =
      hpLimit (hpRange lo hi) / hpRange lo hi := by
  have h : lo ≤ hi := le_trans hv.1 hv.2
  have hpos := hpRange_pos hlo hhi h
  have hrange := hpRange_eq hlo hhi h
  have hj : (v - lo).toNat < hpRange lo hi := by omega
  have key := card_filter_mod_eq hpos (hpLimit (hpRange lo hi)) (v - lo).toNat
    (hpLimit_mod _) hj
  have e2 : (Finset.range (hpLimit (hpRange lo hi))).filter
        (fun r => ((r % hpRange lo hi : Nat) : Int) + lo = v) =
      (Finset.range (hpLimit (hpRange lo hi))).filter
        (fun r => r % hpRange lo hi = (v - lo).toNat) := by
    apply Finset.filter_congr
    intro r _
    omega
  have e1 : (Finset.range (hpLimit (hpRange lo hi))).filter
        (fun r => hpResult lo (hpRange lo hi) r = v) =
      (Finset.range (hpLimit (hpRange lo hi))).filter
        (fun r => r % hpRange lo hi = (v - lo).toNat) := by
    apply Finset.filter_congr
    intro r _
    rw [hpResult_eq hlo hhi h]
    omega
  rw [e1, e2]
  exact ⟨key, key⟩

/-- Witness of C4 at the bounds `(0, 6)` and the target 3. -/
theorem hp_no_modulo_bias_witness :
    isInt32 0 ∧ isInt32 6 ∧ ((0 : Int) ≤ 3 ∧ (3 : Int) ≤ 6) ∧
    (((Finset.range (hpLimit (hpRange 0 6))).filter
        (fun r => hpResult 0 (hpRange 0 6) r = 3)).card =
      hpLimit (hpRange 0 6) / hpRange 0 6 ∧
    ((Finset.range (hpLimit (hpRange 0 6))).filter
        (fun r => ((r % hpRange 0 6 : Nat) : Int) + 0 = 3)).card =
      hpLimit (hpRange 0 6) / hpRange 0 6) :=
  ⟨by decide, by decide, by decide,
    hp_no_modulo_bias 0 6 3 (by decide) (by decide) (by decide)⟩

/-! ## Normal samples -/

/-- C8: from an empty cache, a call `random_normal(m1, s1)` that returns
leaves the flag set and the spare `y * d` stored, the stored storage being
the same for every `(m1, s1)`; the next call `random_normal(m2, s2)` returns
`n2 * s2 + m2` with its own arguments, clears the flag and changes nothing
else in the storage (no generator step, for any loop bound). -/
theorem normal_cache {F : Type} (ops : FloatOps F) (fuel : Nat) (env : SeedEnv) (g : Globals F)
    (m1 s1 v1 : F) (g1 : Globals F) (h0 : g.n2_cached = 0)
    (h1 : random_normal ops fuel env g m1 s1 = some (v1, g1)) :
    g1.n2_cached = 1 ∧
    (∃ x y r gl, polarLoop ops env fuel g = some (x, y, r, gl) ∧
      g1.n2 = ops.mul y (polarScale ops r) ∧
      v1 = ops.add (ops.mul (ops.mul x (polarScale ops r)) s1) m1) ∧
    (∀ m s, ∃ v, random_normal ops fuel env g m s = some (v, g1)) ∧
    (∀ fuel2 env2 m2 s2, random_normal ops fuel2 env2 g1 m2 s2 =
      some (ops.add (ops.mul g1.n2 s2) m2, { g1 with n2_cached := 0 })) := by
  cases hloop : polarLoop ops env fuel g with
  | none => simp [random_normal, h0, hloop] at h1
  | some p =>
    obtain ⟨x, y, r, gl⟩ := p
    simp only [random_normal, h0, if_true, hloop, Option.some.injEq, Prod.mk.injEq] at h1
    obtain ⟨hv, hg⟩ := h1
    subst hg
    refine ⟨rfl, ⟨x, y, r, gl, rfl, rfl, hv.symm⟩, ?_, ?_⟩
    · intro m s
      simp only [random_normal, h0, if_true, hloop]
      exact ⟨_, rfl⟩
    · intro fuel2 env2 m2 s2
      simp [random_normal]

set_option maxRecDepth 100000 in
/-- Witness of C8: the first call `random_normal(0, 1)` of a program, run on
the fixed-point arithmetic; the polar loop rejects its first point and
accepts the second. -/
theorem normal_cache_witness :
    (initialGlobals fixedOps).n2_cached = 0 ∧
    random_normal fixedOps 3 { time := 1793337600, counter := 21828, addr := 140725882410764 }
      (initialGlobals fixedOps) 0 (2 ^ 53) =
      some (-4539856392865817,
        { rf := { state := { state0 := 4195051138600411867, state1 := 12094607012408128564 },
                  seeded := 1 },
          n2 := 9584323877354117, n2_cached := 1,
          hp := { state := { state0 := 0, state1 := 0 }, seeded := 0 } }) ∧
    ∀ m2 s2 : Int,
      random_normal fixedOps 0 { time := 0, counter := 0, addr := 0 }
        { rf := { state := { state0 := 4195051138600411867, state1 := 12094607012408128564 },
                  seeded := 1 },
          n2 := 9584323877354117, n2_cached := 1,
          hp := { state := { state0 := 0, state1 := 0 }, seeded := 0 } } m2 s2 =
      some (fixedOps.add (fixedOps.mul 9584323877354117 s2) m2,
        { rf := { state := { state0 := 4195051138600411867, state1 := 12094607012408128564 },
                  seeded := 1 },
          n2 := 9584323877354117, n2_cached := 0,
          hp := { state := { state0 := 0, state1 := 0 }, seeded := 0 } }) :=
  ⟨by decide, by decide, fun m2 s2 =>
    (normal_cache fixedOps 3 { time := 1793337600, counter := 21828, addr := 140725882410764 }
      (initialGlobals fixedOps) 0 (2 ^ 53) (-4539856392865817)
      { rf := { state := { state0 := 4195051138600411867, state1 := 12094607012408128564 },
                seeded := 1 },
        n2 := 9584323877354117, n2_cached := 1,
        hp := { state := { state0 := 0, state1 := 0 }, seeded := 0 } }
      (by decide) (by decide)).2.2.2 0 { time := 0, counter := 0, addr := 0 } m2 s2⟩

/-! ## The acceptance bound -/

/-- C11: for `1 <= range <= 2^32` the bound
`limit = UINT64_MAX - (UINT64_MAX % range)` is the largest multiple of `range`
not exceeding `UINT64_MAX`: `range` divides it, `limit <= 2^64 - 1 < limit + range`,
every multiple of `range` up to `2^64 - 1` is at most `limit`, and `limit > 0`;
the number `2^64 - limit` of rejected raw values is between 1 and `range`. -/
theorem hpLimit_largest_multiple (range : Nat) (h1 : 1 ≤ range) (h2 : range ≤ 2 ^ 32) :
    range ∣ hpLimit range ∧
    hpLimit range ≤ 2 ^ 64 - 1 ∧
    2 ^ 64 - 1 < hpLimit range + range ∧
    (∀ m, range ∣ m → m ≤ 2 ^ 64 - 1 → m ≤ hpLimit range) ∧
    0 < hpLimit range ∧
    1 ≤ 2 ^ 64 - hpLimit range ∧ 2 ^ 64 - hpLimit range ≤ range := by
  have hdvd : range ∣ hpLimit range := Nat.dvd_of_mod_eq_zero (hpLimit_mod range)
  have hmod : (2 ^ 64 - 1) % range < range := Nat.mod_lt _ h1
  have hle : (2 ^ 64 - 1) % range ≤ 2 ^ 64 - 1 := Nat.mod_le _ _
  have hval : hpLimit range = (2 ^ 64 - 1) - (2 ^ 64 - 1) % range := rfl
  refine ⟨hdvd, by omega, by omega, ?_, by omega, by omega, by omega⟩
  intro m hm hmle
  by_contra hcon
  obtain ⟨j, rfl⟩ := hm
  obtain ⟨q, hq⟩ := hdvd
  have hlt : range * q < range * j := by omega
  have hqj : q < j := Nat.lt_of_mul_lt_mul_left hlt
  have hstep : range * (q + 1) ≤ range * j := Nat.mul_le_mul_left _ hqj
  rw [Nat.mul_add, Nat.mul_one] at hstep
  omega

/-- Witness of C11 at `range = 7`. -/
theorem hpLimit_largest_multiple_witness :
    (1 : Nat) ≤ 7 ∧ (7 : Nat) ≤ 2 ^ 32 ∧
    (7 ∣ hpLimit 7 ∧
    hpLimit 7 ≤ 2 ^ 64 - 1 ∧
    2 ^ 64 - 1 < hpLimit 7 + 7 ∧
    (∀ m, 7 ∣ m → m ≤ 2 ^ 64 - 1 → m ≤ hpLimit 7) ∧
    0 < hpLimit 7 ∧
    1 ≤ 2 ^ 64 - hpLimit 7 ∧ 2 ^ 64 - hpLimit 7 ≤ 7) :=
  ⟨by norm_num, by norm_num, hpLimit_largest_multiple 7 (by norm_num) (by norm_num)⟩

/-! ## Seeding -/

/-- C13: for 64-bit readings `t`, `c`, `a` the seed is
`t XOR (((c * K) mod 2^64) >> 32) XOR ((a * K) mod 2^64)`, with one and the
same odd constant `K = 11400714819323198485 = 0x9E3779B97F4A7C15` in both
products; `state[0] = seed`, `state[1] = seed XOR 0x6A09E667F3BCC909`, so
`state[0] XOR state[1]` is that second constant. -/
theorem xorshift128p_seed_formula (t c a : Nat) (ht : t < 2 ^ 64) (hc : c < 2 ^ 64)
    (ha : a < 2 ^ 64) :
    counterMul = addrMul ∧ addrMul = 0x9E3779B97F4A7C15 ∧ addrMul % 2 = 1 ∧
    seedValue t c a = t ^^^ (((c * addrMul) % 2 ^ 64) >>> 32) ^^^ ((a * addrMul) % 2 ^ 64) ∧
    (xorshift128p_seed t c a).state0 = seedValue t c a ∧
    (xorshift128p_seed t c a).state1 = seedValue t c a ^^^ 0x6A09E667F3BCC909 ∧
    (xorshift128p_seed t c a).state0 ^^^ (xorshift128p_seed t c a).state1 =
      0x6A09E667F3BCC909 := by
  have hK : counterMul = addrMul := by decide
  refine ⟨hK, rfl, by decide, ?_, rfl, rfl, ?_⟩
  · unfold seedValue
    rw [Nat.mod_eq_of_lt ht, Nat.mod_eq_of_lt hc, Nat.mod_eq_of_lt ha, hK]
  · show seedValue t c a ^^^ (seedValue t c a ^^^ stateXor) = 0x6A09E667F3BCC909
    rw [Nat.xor_cancel_left]
    rfl

/-- Witness of C13 at the readings `t = 1793337600`, `c = 21828`,
`a = 140725882410764`. -/
theorem xorshift128p_seed_formula_witness :
    (1793337600 : Nat) < 2 ^ 64 ∧ (21828 : Nat) < 2 ^ 64 ∧ (140725882410764 : Nat) < 2 ^ 64 ∧
    (xorshift128p_seed 1793337600 21828 140725882410764).state0 ^^^
      (xorshift128p_seed 1793337600 21828 140725882410764).state1 = 0x6A09E667F3BCC909 :=
  ⟨by norm_num, by norm_num, by norm_num,
    (xorshift128p_seed_formula 1793337600 21828 140725882410764 (by norm_num) (by norm_num)
      (by norm_num)).2.2.2.2.2.2⟩

/-! ## The all-zero state -/

theorem advance_zero_state (n : Nat) :
    advance n { state0 := 0, state1 := 0 } = { state0 := 0, state1 := 0 } := by
  induction n with
  | zero => rfl
  | succ n ih =>
    rw [advance_succ_right, ih]
    decide

/-- C16: `xorshift128p_next` on the state `(0, 0)` returns 0 and leaves the
state `(0, 0)`; from that state every later output is 0 as well. -/
theorem zero_state_fixed :
    xorshift128p_next { state0 := 0, state1 := 0 } = (0, { state0 := 0, state1 := 0 }) ∧
    ∀ n, advance n { state0 := 0, state1 := 0 } = { state0 := 0, state1 := 0 } ∧
      output n { state0 := 0, state1 := 0 } = 0 := by
  refine ⟨by decide, fun n => ⟨advance_zero_state n, ?_⟩⟩
  unfold output
  rw [advance_zero_state]
  decide

/-! ## The step is a permutation of the 64-bit states -/

theorem shiftRight_xor (x y n : Nat) : (x ^^^ y) >>> n = (x >>> n) ^^^ (y >>> n) := by
  apply Nat.eq_of_testBit_eq
  intro i
  simp only [Nat.testBit_shiftRight, Nat.testBit_xor]

theorem shiftLeft_xor (x y n : Nat) : (x ^^^ y) <<< n = (x <<< n) ^^^ (y <<< n) := by
  apply Nat.eq_of_testBit_eq
  intro i
  simp only [Nat.testBit_shiftLeft, Nat.testBit_xor]
  cases decide (i ≥ n) <;> simp

theorem xor_xor_xor_comm (a b c d : Nat) : (a ^^^ b) ^^^ (c ^^^ d) = (a ^^^ c) ^^^ (b ^^^ d) := by
  rw [Nat.xor_assoc, Nat.xor_assoc, ← Nat.xor_assoc b c d, Nat.xor_comm b c, Nat.xor_assoc c b d]

/-- The stage `s1 ^ (s1 >> 17)` of the step is injective. -/
theorem mix17_injective {x y : Nat} (h : x ^^^ (x >>> 17) = y ^^^ (y >>> 17)) : x = y := by
  have hz : (x ^^^ y) ^^^ ((x ^^^ y) >>> 17) = 0 := by
    rw [shiftRight_xor, xor_xor_xor_comm, h, Nat.xor_self]
  exact Nat.xor_eq_zero.mp (mix17_eq_zero hz)

/-- The stage `s1 ^= s1 << 23` of the step is injective on 64-bit words. -/
theorem mix23_injective {a b : Nat} (ha : a < 2 ^ 64) (hb : b < 2 ^ 64)
    (h : a ^^^ ((a <<< 23) % 2 ^ 64) = b ^^^ ((b <<< 23) % 2 ^ 64)) : a = b := by
  have hab : a ^^^ b < 2 ^ 64 := Nat.xor_lt_two_pow ha hb
  have hz : (a ^^^ b) ^^^ (((a ^^^ b) <<< 23) % 2 ^ 64) = 0 := by
    rw [shiftLeft_xor, xor_mod_two_pow, xor_xor_xor_comm, h, Nat.xor_self]
  exact Nat.xor_eq_zero.mp (mix23_eq_zero hab hz)

theorem xorshift128p_next_state_injective {p q : xorshift128p_state} (hp : p.wf) (hq : q.wf)
    (h : (xorshift128p_next p).2 = (xorshift128p_next q).2) : p = q := by
  obtain ⟨a, b⟩ := p
  obtain ⟨c, d⟩ := q
  obtain ⟨ha, _⟩ := hp
  obtain ⟨hc, _⟩ := hq
  simp only [xorshift128p_next, xorshift128p_state.mk.injEq] at h
  obtain ⟨hbd, hn⟩ := h
  subst hbd
  rw [Nat.xor_left_inj] at hn
  have hn2 : (a ^^^ ((a <<< 23) % 2 ^ 64)) ^^^ ((a ^^^ ((a <<< 23) % 2 ^ 64)) >>> 17) =
      (c ^^^ ((c <<< 23) % 2 ^ 64)) ^^^ ((c ^^^ ((c <<< 23) % 2 ^ 64)) >>> 17) := by
    have e : ∀ t : Nat, t ^^^ b ^^^ (t >>> 17) = (t ^^^ (t >>> 17)) ^^^ b := by
      intro t
      rw [Nat.xor_assoc, Nat.xor_comm b, ← Nat.xor_assoc]
    rw [e, e, Nat.xor_left_inj] at hn
    exact hn
  have hac := mix23_injective ha hc (mix17_injective hn2)
  subst hac
  rfl

theorem advance_add (m n : Nat) (s : xorshift128p_state) :
    advance (m + n) s = advance n (advance m s) := by
  induction m generalizing s with
  | zero => simp [advance]
  | succ m ih =>
    have e : m + 1 + n = (m + n) + 1 := by omega
    rw [e]
    exact ih (xorshift128p_next s).2

theorem advance_injective (n : Nat) {p q : xorshift128p_state} (hp : p.wf) (hq : q.wf)
    (h : advance n p = advance n q) : p = q := by
  induction n generalizing p q with
  | zero => exact h
  | succ n ih =>
    exact xorshift128p_next_state_injective hp hq
      (ih (xorshift128p_next_wf hp) (xorshift128p_next_wf hq) h)

theorem wf_states_finite : Finite { s : xorshift128p_state // s.wf } := by
  let f : { s : xorshift128p_state // s.wf } → Fin (2 ^ 64) × Fin (2 ^ 64) :=
    fun s => (⟨s.1.state0, s.2.1⟩, ⟨s.1.state1, s.2.2⟩)
  apply Finite.of_injective f
  intro x y hxy
  obtain ⟨⟨a, b⟩, hx⟩ := x
  obtain ⟨⟨c, d⟩, hy⟩ := y
  simp only [f, Prod.mk.injEq, Fin.mk.injEq] at hxy
  obtain ⟨h1, h2⟩ := hxy
  subst h1
  subst h2
  rfl

theorem advance_returns_of_collision {s : xorshift128p_state} (hs : s.wf) {i j : Nat}
    (hlt : i < j) (h : advance i s = advance j s) : advance (j - i) s = s := by
  have e : j = (j - i) + i := by omega
  rw [e, advance_add] at h
  exact (advance_injective i hs (advance_wf hs (j - i)) h).symm

theorem advance_returns {s : xorshift128p_state} (hs : s.wf) :
    ∃ n, 0 < n ∧ advance n s = s := by
  haveI := wf_states_finite
  obtain ⟨i, j, hij, hf⟩ := Finite.exists_ne_map_eq_of_infinite
    (fun n : Nat => (⟨advance n s, advance_wf hs n⟩ : { s : xorshift128p_state // s.wf }))
  have hval : advance i s = advance j s := congrArg Subtype.val hf
  rcases Nat.lt_or_gt_of_ne hij with hlt | hgt
  · exact ⟨j - i, by omega, advance_returns_of_collision hs hlt hval⟩
  · exact ⟨i - j, by omega, advance_returns_of_collision hs hgt hval.symm⟩

/-- C17: on 64-bit states the transition of `xorshift128p_next` is injective:
equal states after one step, or after any number of steps, come from equal
states (no two streams merge). It is a permutation: every state has a
predecessor, and every state returns to itself after some positive number of
steps. -/
theorem xorshift128p_next_permutation (p q : xorshift128p_state) (hp : p.wf) (hq : q.wf) :
    ((xorshift128p_next p).2 = (xorshift128p_next q).2 → p = q) ∧
    (∀ n, advance n p = advance n q → p = q) ∧
    (∃ r : xorshift128p_state, r.wf ∧ (xorshift128p_next r).2 = p) ∧
    (∃ n, 0 < n ∧ advance n p = p) := by
  refine ⟨xorshift128p_next_state_injective hp hq, fun n => advance_injective n hp hq, ?_,
    advance_returns hp⟩
  obtain ⟨n, hn, hcyc⟩ := advance_returns hp
  obtain ⟨m, rfl⟩ : ∃ m, n = m + 1 := ⟨n - 1, by omega⟩
  exact ⟨advance m p, advance_wf hp m, by rw [← advance_succ_right, hcyc]⟩

/-- Witness of C17 at the states `(1, 2)` and `(3, 4)`. -/
theorem xorshift128p_next_permutation_witness :
    ({ state0 := 1, state1 := 2 } : xorshift128p_state).wf ∧
    ({ state0 := 3, state1 := 4 } : xorshift128p_state).wf ∧
    (((xorshift128p_next { state0 := 1, state1 := 2 }).2 =
        (xorshift128p_next { state0 := 3, state1 := 4 }).2 →
      ({ state0 := 1, state1 := 2 } : xorshift128p_state) = { state0 := 3, state1 := 4 }) ∧
    (∀ n, advance n { state0 := 1, state1 := 2 } = advance n { state0 := 3, state1 := 4 } →
      ({ state0 := 1, state1 := 2 } : xorshift128p_state) = { state0 := 3, state1 := 4 }) ∧
    (∃ r : xorshift128p_state, r.wf ∧ (xorshift128p_next r).2 = { state0 := 1, state1 := 2 }) ∧
    (∃ n, 0 < n ∧ advance n { state0 := 1, state1 := 2 } = { state0 := 1, state1 := 2 })) :=
  ⟨by decide, by decide,
    xorshift128p_next_permutation { state0 := 1, state1 := 2 } { state0 := 3, state1 := 4 }
      (by decide) (by decide)⟩

/-! ## The range of the high-precision operation -/

/-- C18: for 32-bit arguments in either order, the 64-bit unsigned
`range = (uint64_t)max - min + 1` computed after the swap is the mathematical
`max - min + 1` and lies in `[1, 2^32]`; it is never 0, so the operation never
takes the `range == 0` exit and always reaches the rejection loop with a
non-zero divisor. -/
theorem hpRange_never_zero {F : Type} (fuel : Nat) (env : SeedEnv) (g : Globals F) (a b : Int)
    (ha : isInt32 a) (hb : isInt32 b) :
    ((hpRange (min a b) (max a b) : Nat) : Int) = max a b - min a b + 1 ∧
    1 ≤ hpRange (min a b) (max a b) ∧ hpRange (min a b) (max a b) ≤ 2 ^ 32 ∧
    hpRange (min a b) (max a b) ≠ 0 ∧
    random_int_high_precision fuel env g a b =
      match rejectLoop (hpLimit (hpRange (min a b) (max a b))) fuel (seedOnce env g.hp).state with
      | none => none
      | some (r, st) =>
        some (hpResult (min a b) (hpRange (min a b) (max a b)) r,
          { g with hp := { seedOnce env g.hp with state := st } }) := by
  have hlo : isInt32 (min a b) := by rcases min_choice a b with e | e <;> rw [e] <;> assumption
  have hhi : isInt32 (max a b) := by rcases max_choice a b with e | e <;> rw [e] <;> assumption
  have hle : min a b ≤ max a b := min_le_max
  have hrange := hpRange_eq hlo hhi hle
  have hne : hpRange (min a b) (max a b) ≠ 0 := by omega
  refine ⟨hrange, ?_, ?_, hne, ?_⟩
  · omega
  · unfold isInt32 at hlo hhi
    have : ((hpRange (min a b) (max a b) : Nat) : Int) ≤ 2 ^ 32 := by omega
    exact_mod_cast this
  · rw [hp_swap, hp_ordered fuel env g hle hne]

/-- Witness of C18 at the full span, bounds given in descending order:
`random_int_high_precision(INT_MAX, INT_MIN)` has `range = 2^32`. -/
theorem hpRange_never_zero_witness :
    isInt32 (2 ^ 31 - 1) ∧ isInt32 (-(2 ^ 31)) ∧
    hpRange (min (2 ^ 31 - 1) (-(2 ^ 31))) (max (2 ^ 31 - 1) (-(2 ^ 31))) ≠ 0 ∧
    hpRange (-(2 ^ 31)) (2 ^ 31 - 1) = 2 ^ 32 :=
  ⟨by decide, by decide,
    (hpRange_never_zero 0 { time := 0, counter := 0, addr := 0 }
      ({ rf := { state := { state0 := 0, state1 := 0 }, seeded := 0 }, n2 := (), n2_cached := 0,
         hp := { state := { state0 := 0, state1 := 0 }, seeded := 0 } } : Globals Unit)
      (2 ^ 31 - 1) (-(2 ^ 31)) (by decide) (by decide)).2.2.2.1,
    by decide⟩

/-! ## The uniform mapping before narrowing -/

theorem xorshift128p_next_fst_lt (s : xorshift128p_state) : (xorshift128p_next s).1 < 2 ^ 64 :=
  Nat.mod_lt _ (by norm_num)

/-- C12: for a 64-bit generator output `u`, `k = u >> 11` is below `2^53`; the
`double` that `random_float` computes before narrowing, with the rounding of
each operation taken into account, is exactly `k / 2^53` (numerator `k`), at
most `1 - 2^-53`; the returned value is the narrowing of that `double` for the
output of one `xorshift128p_next` step, and the call leaves the generator one
step further. -/
theorem uniform_double_exact {F : Type} (env : SeedEnv) (g : Globals F) (u : Nat)
    (hu : u < 2 ^ 64) :
    u >>> 11 < 2 ^ 53 ∧ u >>> 11 = u / 2 ^ 11 ∧
    uniformDoubleRounded u = u >>> 11 ∧ uniformDouble u = uniformDoubleRounded u ∧
    uniformDouble u ≤ 2 ^ 53 - 1 ∧
    (xorshift128p_next (seedOnce env g.rf).state).1 < 2 ^ 64 ∧
    (random_float env g).1 =
      doubleToFloat (uniformDouble (xorshift128p_next (seedOnce env g.rf).state).1) ∧
    (random_float env g).2.rf.state = (xorshift128p_next (seedOnce env g.rf).state).2 ∧
    (g.rf.seeded ≠ 0 → (random_float env g).2.rf.state = advance 1 g.rf.state) := by
  have hdiv : u >>> 11 = u / 2 ^ 11 := Nat.shiftRight_eq_div_pow u 11
  have hk : u >>> 11 < 2 ^ 53 := by omega
  have hround : uniformDoubleRounded u = u >>> 11 := by
    simp only [uniformDoubleRounded, roundNat53, hk, if_true]
  refine ⟨hk, hdiv, hround, ?_, ?_, xorshift128p_next_fst_lt _, rfl, rfl, ?_⟩
  · rw [hround]
    rfl
  · show u >>> 11 ≤ 2 ^ 53 - 1
    omega
  · intro hs
    show (xorshift128p_next (seedOnce env g.rf).state).2 = advance 1 g.rf.state
    simp only [seedOnce, hs, if_false]
    rfl

/-- Witness of C12 at the largest output `u = 2^64 - 1` and a seeded
generator in the state `(1, 2)`. -/
theorem uniform_double_exact_witness :
    (2 ^ 64 - 1 : Nat) < 2 ^ 64 ∧ ((1 : Int) ≠ 0) ∧
    uniformDoubleRounded (2 ^ 64 - 1) = (2 ^ 64 - 1) >>> 11 ∧
    uniformDouble (2 ^ 64 - 1) ≤ 2 ^ 53 - 1 ∧
    (random_float { time := 0, counter := 0, addr := 0 }
      ({ rf := { state := { state0 := 1, state1 := 2 }, seeded := 1 }, n2 := (), n2_cached := 0,
         hp := { state := { state0 := 0, state1 := 0 }, seeded := 0 } } : Globals Unit)).2.rf.state
      = advance 1 { state0 := 1, state1 := 2 } :=
  ⟨by norm_num, by decide,
    (uniform_double_exact { time := 0, counter := 0, addr := 0 }
      ({ rf := { state := { state0 := 1, state1 := 2 }, seeded := 1 }, n2 := (), n2_cached := 0,
         hp := { state := { state0 := 0, state1 := 0 }, seeded := 0 } } : Globals Unit)
      (2 ^ 64 - 1) (by norm_num)).2.2.1,
    (uniform_double_exact { time := 0, counter := 0, addr := 0 }
      ({ rf := { state := { state0 := 1, state1 := 2 }, seeded := 1 }, n2 := (), n2_cached := 0,
         hp := { state := { state0 := 0, state1 := 0 }, seeded := 0 } } : Globals Unit)
      (2 ^ 64 - 1) (by norm_num)).2.2.2.2.1,
    (uniform_double_exact { time := 0, counter := 0, addr := 0 }
      ({ rf := { state := { state0 := 1, state1 := 2 }, seeded := 1 }, n2 := (), n2_cached := 0,
         hp := { state := { state0 := 0, state1 := 0 }, seeded := 0 } } : Globals Unit)
      (2 ^ 64 - 1) (by norm_num)).2.2.2.2.2.2.2.2 (by decide)⟩

/-! ## Separate generator instances -/

theorem random_float_frame {F : Type} (env : SeedEnv) (g : Globals F) :
    (random_float env g).2.hp = g.hp ∧ (random_float env g).2.n2 = g.n2 ∧
    (random_float env g).2.n2_cached = g.n2_cached :=
  ⟨rfl, rfl, rfl⟩

theorem random_int_snd {F : Type} (env : SeedEnv) (g : Globals F) (a b : Int) :
    (random_int env g a b).2 = (random_float env g).2 := by
  unfold random_int
  split_ifs <;> rfl

theorem polarLoop_frame {F : Type} (ops : FloatOps F) (env : SeedEnv) (fuel : Nat) :
    ∀ (g : Globals F) (x y r : F) (g1 : Globals F),
      polarLoop ops env fuel g = some (x, y, r, g1) →
      g1.hp = g.hp ∧ g1.n2 = g.n2 ∧ g1.n2_cached = g.n2_cached := by
  induction fuel with
  | zero =>
    intro g x y r g1 h
    simp [polarLoop] at h
  | succ fuel ih =>
    intro g x y r g1 h
    simp only [polarLoop] at h
    split_ifs at h with hc
    · have := ih _ x y r g1 h
      exact this
    · simp only [Option.some.injEq, Prod.mk.injEq] at h
      obtain ⟨_, _, _, hg⟩ := h
      subst hg
      exact ⟨rfl, rfl, rfl⟩

theorem random_normal_frame {F : Type} (ops : FloatOps F) (fuel : Nat) (env : SeedEnv)
    (g : Globals F) (m s : F) (res : F × Globals F)
    (h : random_normal ops fuel env g m s = some res) : res.2.hp = g.hp := by
  unfold random_normal at h
  split_ifs at h with hc
  · cases hloop : polarLoop ops env fuel g with
    | none => rw [hloop] at h; simp at h
    | some p =>
      obtain ⟨x, y, r, g1⟩ := p
      rw [hloop] at h
      simp only [Option.some.injEq] at h
      subst h
      exact (polarLoop_frame ops env fuel g x y r g1 hloop).1
  · simp only [Option.some.injEq] at h
    subst h
    rfl

theorem hp_frame {F : Type} (fuel : Nat) (env : SeedEnv) (g : Globals F) (a b : Int)
    (res : Int × Globals F) (h : random_int_high_precision fuel env g a b = some res) :
    res.2.rf = g.rf ∧ res.2.n2 = g.n2 ∧ res.2.n2_cached = g.n2_cached := by
  unfold random_int_high_precision at h
  simp only at h
  split_ifs at h with hc hr hr
  all_goals first
    | (simp only [Option.some.injEq] at h; subst h; exact ⟨rfl, rfl, rfl⟩)
    | (split at h
       · simp at h
       · simp only [Option.some.injEq] at h; subst h; exact ⟨rfl, rfl, rfl⟩)

/-- C15: `random_int` changes the storage exactly as one call of
`random_float` does (one step of that instance when it is already seeded) and,
like `random_float` and `random_normal`, leaves the statics of
`random_int_high_precision` unchanged; `random_int_high_precision` leaves the
statics of `random_float` (words and flag) and the normal-sample cache
unchanged. -/
theorem separate_streams {F : Type} (ops : FloatOps F) (fuel : Nat) (env : SeedEnv)
    (g : Globals F) (a b : Int) (m s : F) :
    (random_int env g a b).2 = (random_float env g).2 ∧
    (g.rf.seeded ≠ 0 →
      (random_int env g a b).2.rf.state = advance 1 g.rf.state ∧
      (random_int env g a b).2.rf.seeded = g.rf.seeded) ∧
    (random_int env g a b).2.hp = g.hp ∧
    (random_float env g).2.hp = g.hp ∧
    (∀ res, random_normal ops fuel env g m s = some res → res.2.hp = g.hp) ∧
    (∀ res, random_int_high_precision fuel env g a b = some res →
      res.2.rf = g.rf ∧ res.2.n2 = g.n2 ∧ res.2.n2_cached = g.n2_cached) := by
  refine ⟨random_int_snd env g a b, ?_, ?_, rfl, ?_, ?_⟩
  · intro hs
    rw [random_int_snd]
    show (xorshift128p_next (seedOnce env g.rf).state).2 = advance 1 g.rf.state ∧
      (seedOnce env g.rf).seeded = g.rf.seeded
    simp only [seedOnce, hs, if_false]
    exact ⟨rfl, trivial⟩
  · rw [random_int_snd]
    rfl
  · exact fun res h => random_normal_frame ops fuel env g m s res h
  · exact fun res h => hp_frame fuel env g a b res h

set_option maxRecDepth 100000 in
/-- Witness of C15 on the fixed-point arithmetic: the instance of
`random_float` is seeded and in the state `(1, 2)`, the instance of
`random_int_high_precision` is fresh. -/
theorem separate_streams_witness :
    ((1 : Int) ≠ 0) ∧
    random_normal fixedOps 8 { time := 1793337600, counter := 21828, addr := 140725882410764 }
      { rf := { state := { state0 := 1, state1 := 2 }, seeded := 1 }, n2 := 0, n2_cached := 0,
        hp := { state := { state0 := 0, state1 := 0 }, seeded := 0 } } 0 (2 ^ 53) =
      some (1694858071855640,
        { rf := { state := { state0 := 9882597467257005294, state1 := 9926517607466944500 },
                  seeded := 1 },
          n2 := -10468859363375300, n2_cached := 1,
          hp := { state := { state0 := 0, state1 := 0 }, seeded := 0 } }) ∧
    random_int_high_precision 8
      { time := 1793337600, counter := 21828, addr := 140725882410764 }
      { rf := { state := { state0 := 1, state1 := 2 }, seeded := 1 }, n2 := (0 : Int),
        n2_cached := 0,
        hp := { state := { state0 := 0, state1 := 0 }, seeded := 0 } } 0 99 =
      some (18,
        { rf := { state := { state0 := 1, state1 := 2 }, seeded := 1 }, n2 := 0, n2_cached := 0,
          hp := { state := { state0 := 5666895925977677692, state1 := 12757509416305861226 },
                  seeded := 1 } }) ∧
    (random_int { time := 1793337600, counter := 21828, addr := 140725882410764 }
      { rf := { state := { state0 := 1, state1 := 2 }, seeded := 1 }, n2 := (0 : Int),
        n2_cached := 0,
        hp := { state := { state0 := 0, state1 := 0 }, seeded := 0 } } 0 99).2.rf.state =
      advance 1 { state0 := 1, state1 := 2 } :=
  ⟨by decide, by decide, by decide,
    ((separate_streams fixedOps 8
      { time := 1793337600, counter := 21828, addr := 140725882410764 }
      { rf := { state := { state0 := 1, state1 := 2 }, seeded := 1 }, n2 := 0, n2_cached := 0,
        hp := { state := { state0 := 0, state1 := 0 }, seeded := 0 } } 0 99 0 (2 ^ 53)).2.1
      (by decide)).1⟩

/-! ## Seeding happens once -/

theorem seedOnce_seeded_ne_zero (env : SeedEnv) (i : Instance) : (seedOnce env i).seeded ≠ 0 := by
  unfold seedOnce
  split_ifs with h
  · show (1 : Int) ≠ 0
    decide
  · exact h

theorem seedOnce_of_seeded (env : SeedEnv) {i : Instance} (h : i.seeded ≠ 0) :
    seedOnce env i = i := by
  simp only [seedOnce, h, if_false]

theorem rejectLoop_advance (limit : Nat) (fuel : Nat) :
    ∀ (s : xorshift128p_state) (r : Nat) (s1 : xorshift128p_state),
      rejectLoop limit fuel s = some (r, s1) → ∃ n, 0 < n ∧ s1 = advance n s := by
  induction fuel with
  | zero =>
    intro s r s1 h
    simp [rejectLoop] at h
  | succ fuel ih =>
    intro s r s1 h
    simp only [rejectLoop] at h
    split_ifs at h with hc
    · obtain ⟨n, _, hn⟩ := ih _ r s1 h
      exact ⟨n + 1, by omega, hn⟩
    · simp only [Option.some.injEq, Prod.mk.injEq] at h
      exact ⟨1, by omega, h.2.symm⟩

theorem hp_instance_after {F : Type} (fuel : Nat) (env : SeedEnv) (g : Globals F) (a b : Int)
    (res : Int × Globals F) (h : random_int_high_precision fuel env g a b = some res) :
    res.2.hp.seeded = (seedOnce env g.hp).seeded ∧
    ∃ n, res.2.hp.state = advance n (seedOnce env g.hp).state := by
  unfold random_int_high_precision at h
  simp only at h
  split_ifs at h with hc hr hr
  all_goals first
    | (simp only [Option.some.injEq] at h; subst h; exact ⟨rfl, 0, rfl⟩)
    | (split at h
       · simp at h
       · rename_i r st hloop
         simp only [Option.some.injEq] at h
         subst h
         obtain ⟨n, _, hn⟩ := rejectLoop_advance _ _ _ _ _ hloop
         exact ⟨rfl, n, hn⟩)

theorem floatCalls_count {F : Type} (es : List SeedEnv) :
    ∀ g : Globals F, (floatCalls es g).2 = if g.rf.seeded = 0 ∧ es ≠ [] then 1 else 0 := by
  induction es with
  | nil => intro g; simp [floatCalls]
  | cons env es ih =>
    intro g
    have hstep : (floatCalls (env :: es) g).2 =
        seedCalls g.rf + (floatCalls es (random_float env g).2).2 := rfl
    have hnext : (random_float env g).2.rf.seeded ≠ 0 := seedOnce_seeded_ne_zero env g.rf
    rw [hstep, ih, seedCalls]
    simp [hnext]

theorem hpCalls_count {F : Type} (fuel : Nat) (cs : List (SeedEnv × Int × Int)) :
    ∀ (g : Globals F) (out : Globals F × Nat), hpCalls fuel cs g = some out →
      out.2 = if g.hp.seeded = 0 ∧ cs ≠ [] then 1 else 0 := by
  induction cs with
  | nil =>
    intro g out h
    simp only [hpCalls, Option.some.injEq] at h
    subst h
    simp
  | cons c cs ih =>
    intro g out h
    obtain ⟨env, a, b⟩ := c
    simp only [hpCalls] at h
    cases hcall : random_int_high_precision fuel env g a b with
    | none => rw [hcall] at h; simp at h
    | some res =>
      obtain ⟨v, g1⟩ := res
      rw [hcall] at h
      simp only at h
      cases hrest : hpCalls fuel cs g1 with
      | none => rw [hrest] at h; simp at h
      | some out1 =>
        obtain ⟨g2, n⟩ := out1
        rw [hrest] at h
        simp only [Option.some.injEq] at h
        subst h
        have hflag : g1.hp.seeded ≠ 0 := by
          have := (hp_instance_after fuel env g a b (v, g1) hcall).1
          simp only at this
          rw [this]
          exact seedOnce_seeded_ne_zero env g.hp
        have hn := ih g1 (g2, n) hrest
        simp only [hflag, false_and, if_false] at hn
        subst hn
        simp [seedCalls]

/-- C14: a call of `random_float` or of `random_int_high_precision` made with
the flag `seeded` set does not call `xorshift128p_seed`: the words of the
instance change only by `xorshift128p_next` steps and the flag keeps its
value; every call leaves the flag set. Over any sequence of calls of either
function `xorshift128p_seed` is therefore called once, in the first call,
when the instance starts unseeded, and never otherwise. -/
theorem seeded_at_most_once {F : Type} (fuel : Nat) (env : SeedEnv) (g : Globals F) (a b : Int) :
    (g.rf.seeded ≠ 0 → seedCalls g.rf = 0 ∧
      (random_float env g).2.rf = { state := advance 1 g.rf.state, seeded := g.rf.seeded }) ∧
    (random_float env g).2.rf.seeded ≠ 0 ∧
    (∀ res, random_int_high_precision fuel env g a b = some res →
      res.2.hp.seeded ≠ 0 ∧
      (g.hp.seeded ≠ 0 → seedCalls g.hp = 0 ∧ res.2.hp.seeded = g.hp.seeded ∧
        ∃ n, res.2.hp.state = advance n g.hp.state)) ∧
    (∀ es : List SeedEnv,
      (floatCalls es g).2 = if g.rf.seeded = 0 ∧ es ≠ [] then 1 else 0) ∧
    (∀ (cs : List (SeedEnv × Int × Int)) (out : Globals F × Nat), hpCalls fuel cs g = some out →
      out.2 = if g.hp.seeded = 0 ∧ cs ≠ [] then 1 else 0) := by
  refine ⟨?_, seedOnce_seeded_ne_zero env g.rf, ?_, fun es => floatCalls_count es g,
    fun cs out h => hpCalls_count fuel cs g out h⟩
  · intro hs
    refine ⟨by simp [seedCalls, hs], ?_⟩
    show ({ seedOnce env g.rf with state := (xorshift128p_next (seedOnce env g.rf).state).2 } :
      Instance) = _
    rw [seedOnce_of_seeded env hs]
    rfl
  · intro res h
    obtain ⟨hflag, n, hn⟩ := hp_instance_after fuel env g a b res h
    refine ⟨by rw [hflag]; exact seedOnce_seeded_ne_zero env g.hp, ?_⟩
    intro hs
    rw [seedOnce_of_seeded env hs] at hflag hn
    exact ⟨by simp [seedCalls, hs], hflag, n, hn⟩

/-- Witness of C14. With both instances seeded and in the state `(1, 2)`, a
call of `random_int_high_precision(0, 99)` returns 77 after one step; from the
storage of a starting program, two calls of `random_float` and two calls of
`random_int_high_precision` seed each instance once. -/
theorem seeded_at_most_once_witness :
    ((1 : Int) ≠ 0) ∧
    random_int_high_precision 5 { time := 1793337600, counter := 21828, addr := 140725882410764 }
      ({ rf := { state := { state0 := 1, state1 := 2 }, seeded := 1 }, n2 := (), n2_cached := 0,
         hp := { state := { state0 := 1, state1 := 2 }, seeded := 1 } } : Globals Unit) 0 99 =
      some (77, { rf := { state := { state0 := 1, state1 := 2 }, seeded := 1 }, n2 := (),
                  n2_cached := 0,
                  hp := { state := { state0 := 2, state1 := 8388675 }, seeded := 1 } }) ∧
    hpCalls 5 [({ time := 1793337600, counter := 21828, addr := 140725882410764 }, 0, 99),
        ({ time := 1793337601, counter := 5, addr := 140725882410764 }, 6, 1)]
      ({ rf := { state := { state0 := 0, state1 := 0 }, seeded := 0 }, n2 := (), n2_cached := 0,
         hp := { state := { state0 := 0, state1 := 0 }, seeded := 0 } } : Globals Unit) =
      some ({ rf := { state := { state0 := 0, state1 := 0 }, seeded := 0 }, n2 := (),
                  n2_cached := 0,
                  hp := { state := { state0 := 12757509416305861226,
                                     state1 := 1681196252030285730 }, seeded := 1 } }, 1) ∧
    (random_float { time := 1793337600, counter := 21828, addr := 140725882410764 }
      ({ rf := { state := { state0 := 1, state1 := 2 }, seeded := 1 }, n2 := (), n2_cached := 0,
         hp := { state := { state0 := 1, state1 := 2 }, seeded := 1 } } : Globals Unit)).2.rf =
      { state := advance 1 { state0 := 1, state1 := 2 }, seeded := 1 } ∧
    (∃ n, ({ state0 := 2, state1 := 8388675 } : xorshift128p_state) =
      advance n { state0 := 1, state1 := 2 }) ∧
    (floatCalls [{ time := 1793337600, counter := 21828, addr := 140725882410764 },
        { time := 1793337601, counter := 5, addr := 140725882410764 }]
      ({ rf := { state := { state0 := 0, state1 := 0 }, seeded := 0 }, n2 := (), n2_cached := 0,
         hp := { state := { state0 := 0, state1 := 0 }, seeded := 0 } } : Globals Unit)).2 = 1 ∧
    (Prod.snd (({ rf := { state := { state0 := 0, state1 := 0 }, seeded := 0 }, n2 := (),
                  n2_cached := 0,
                  hp := { state := { state0 := 12757509416305861226,
                                     state1 := 1681196252030285730 }, seeded := 1 } }, 1) :
      Globals Unit × Nat)) = 1 :=
  ⟨by decide, by decide, by decide,
    ((seeded_at_most_once 5 { time := 1793337600, counter := 21828, addr := 140725882410764 }
      ({ rf := { state := { state0 := 1, state1 := 2 }, seeded := 1 }, n2 := (), n2_cached := 0,
         hp := { state := { state0 := 1, state1 := 2 }, seeded := 1 } } : Globals Unit) 0 99).1 (by decide)).2,
    (((seeded_at_most_once 5 { time := 1793337600, counter := 21828, addr := 140725882410764 }
      ({ rf := { state := { state0 := 1, state1 := 2 }, seeded := 1 }, n2 := (), n2_cached := 0,
         hp := { state := { state0 := 1, state1 := 2 }, seeded := 1 } } : Globals Unit) 0 99).2.2.1
      (77, { rf := { state := { state0 := 1, state1 := 2 }, seeded := 1 }, n2 := (),
                  n2_cached := 0,
                  hp := { state := { state0 := 2, state1 := 8388675 }, seeded := 1 } }) (by decide)).2 (by decide)).2.2,
    (seeded_at_most_once 5 { time := 1793337600, counter := 21828, addr := 140725882410764 }
      ({ rf := { state := { state0 := 0, state1 := 0 }, seeded := 0 }, n2 := (), n2_cached := 0,
         hp := { state := { state0 := 0, state1 := 0 }, seeded := 0 } } : Globals Unit) 0 99).2.2.2.1
      [{ time := 1793337600, counter := 21828, addr := 140725882410764 },
        { time := 1793337601, counter := 5, addr := 140725882410764 }],
    (seeded_at_most_once 5 { time := 1793337600, counter := 21828, addr := 140725882410764 }
      ({ rf := { state := { state0 := 0, state1 := 0 }, seeded := 0 }, n2 := (), n2_cached := 0,
         hp := { state := { state0 := 0, state1 := 0 }, seeded := 0 } } : Globals Unit) 0 99).2.2.2.2
      [({ time := 1793337600, counter := 21828, addr := 140725882410764 }, 0, 99),
        ({ time := 1793337601, counter := 5, addr := 140725882410764 }, 6, 1)]
      ({ rf := { state := { state0 := 0, state1 := 0 }, seeded := 0 }, n2 := (),
                  n2_cached := 0,
                  hp := { state := { state0 := 12757509416305861226,
                                     state1 := 1681196252030285730 }, seeded := 1 } }, 1) (by decide)⟩

/-! ## Rounding to binary32 -/

theorem ilog2_zero : ilog2 0 = 0 := rfl

theorem pow_ilog2_le {f : Nat} (hf : f ≠ 0) : 2 ^ ilog2 f ≤ f := by
  have hlog : ilog2 f = f.log2 := ilog2_eq (Nat.log2_self_le hf) Nat.lt_log2_self
  rw [hlog]
  exact Nat.log2_self_le hf

theorem ilog2_le_of_le_pow {f k : Nat} (h : f ≤ 2 ^ k) : ilog2 f ≤ k := by
  by_cases hf : f = 0
  · rw [hf, ilog2_zero]
    exact Nat.zero_le k
  · have h1 := pow_ilog2_le hf
    by_contra hcon
    have h2 : 2 ^ (k + 1) ≤ 2 ^ ilog2 f := Nat.pow_le_pow_right (by norm_num) (by omega)
    have h3 : 2 ^ k < 2 ^ (k + 1) := Nat.pow_lt_pow_right (by norm_num) (by omega)
    omega

theorem roundAt_ge (sh n d : Nat) : n / (d * 2 ^ sh) * 2 ^ sh ≤ roundAt sh n d := by
  unfold roundAt
  simp only
  split_ifs
  · exact Nat.mul_le_mul_right _ (Nat.le_succ _)
  · exact Nat.le_refl _

theorem roundAt_le (sh n d : Nat) : roundAt sh n d ≤ (n / (d * 2 ^ sh) + 1) * 2 ^ sh := by
  unfold roundAt
  simp only
  split_ifs
  · exact Nat.le_refl _
  · exact Nat.mul_le_mul_right _ (Nat.le_succ _)

theorem roundAt_exact {sh n d : Nat} (hd : 0 < d) (h : n % (d * 2 ^ sh) = 0) :
    roundAt sh n d = n / (d * 2 ^ sh) * 2 ^ sh := by
  have hD : 0 < d * 2 ^ sh := Nat.mul_pos hd (Nat.pos_pow_of_pos _ (by norm_num))
  unfold roundAt
  simp only [h]
  rw [if_neg]
  omega

theorem roundQuot_zero {d : Nat} (hd : 0 < d) : roundQuot 0 d = 0 := by
  unfold roundQuot
  rw [roundAt_exact hd (Nat.zero_mod _)]
  simp

theorem roundQuot_le_pow {n d k : Nat} (hd : 0 < d) (h : n ≤ 2 ^ k * d) :
    roundQuot n d ≤ 2 ^ k := by
  have hf : n / d ≤ 2 ^ k := Nat.div_le_of_le_mul (by rw [Nat.mul_comm]; exact h)
  have hsh : ilog2 (n / d) - 23 ≤ k := le_trans (Nat.sub_le _ _) (ilog2_le_of_le_pow hf)
  unfold roundQuot
  generalize ilog2 (n / d) - 23 = sh at hsh
  have hpos : 0 < 2 ^ sh := Nat.pos_pow_of_pos _ (by norm_num)
  have hD : 0 < d * 2 ^ sh := Nat.mul_pos hd hpos
  have hsplit : 2 ^ k = 2 ^ (k - sh) * 2 ^ sh := by
    rw [← Nat.pow_add]
    congr 1
    omega
  have hn : n ≤ 2 ^ (k - sh) * (d * 2 ^ sh) := by
    calc n ≤ 2 ^ k * d := h
      _ = 2 ^ (k - sh) * (d * 2 ^ sh) := by rw [hsplit]; ring
  have hq : n / (d * 2 ^ sh) ≤ 2 ^ (k - sh) :=
    Nat.div_le_of_le_mul (by rw [Nat.mul_comm]; exact hn)
  rcases Nat.lt_or_eq_of_le hq with hlt | heq
  · calc roundAt sh n d ≤ (n / (d * 2 ^ sh) + 1) * 2 ^ sh := roundAt_le sh n d
      _ ≤ 2 ^ (k - sh) * 2 ^ sh := Nat.mul_le_mul_right _ hlt
      _ = 2 ^ k := hsplit.symm
  · have hge : 2 ^ (k - sh) * (d * 2 ^ sh) ≤ n := by
      rw [← heq]
      exact Nat.div_mul_le_self n (d * 2 ^ sh)
    have hneq : n = 2 ^ (k - sh) * (d * 2 ^ sh) := Nat.le_antisymm hn hge
    have hmod : n % (d * 2 ^ sh) = 0 := by
      rw [hneq]
      exact Nat.mul_mod_left _ _
    rw [roundAt_exact hd hmod, heq, ← hsplit]

theorem roundQuot_ge_pow {n d k : Nat} (hd : 0 < d) (h : 2 ^ k * d ≤ n) :
    2 ^ k ≤ roundQuot n d := by
  have hf : 2 ^ k ≤ n / d := (Nat.le_div_iff_mul_le hd).mpr h
  have hf0 : n / d ≠ 0 := by
    have : 0 < 2 ^ k := Nat.pos_pow_of_pos _ (by norm_num)
    omega
  have hlog := pow_ilog2_le hf0
  unfold roundQuot
  generalize hshdef : ilog2 (n / d) - 23 = sh
  have hpos : 0 < 2 ^ sh := Nat.pos_pow_of_pos _ (by norm_num)
  have hD : 0 < d * 2 ^ sh := Nat.mul_pos hd hpos
  have hdiv : n / (d * 2 ^ sh) = n / d / 2 ^ sh := (Nat.div_div_eq_div_mul n d (2 ^ sh)).symm
  refine le_trans ?_ (roundAt_ge sh n d)
  rw [hdiv]
  by_cases hle : sh ≤ k
  · have hsplit : 2 ^ k = 2 ^ (k - sh) * 2 ^ sh := by
      rw [← Nat.pow_add]
      congr 1
      omega
    have hq : 2 ^ (k - sh) ≤ n / d / 2 ^ sh := by
      rw [Nat.le_div_iff_mul_le hpos, ← hsplit]
      exact hf
    calc 2 ^ k = 2 ^ (k - sh) * 2 ^ sh := hsplit
      _ ≤ n / d / 2 ^ sh * 2 ^ sh := Nat.mul_le_mul_right _ hq
  · have he : ilog2 (n / d) = sh + 23 := by omega
    have hsplit : 2 ^ ilog2 (n / d) = 2 ^ 23 * 2 ^ sh := by
      rw [he, ← Nat.pow_add]
      congr 1
      omega
    have hq : 2 ^ 23 ≤ n / d / 2 ^ sh := by
      rw [Nat.le_div_iff_mul_le hpos, ← hsplit]
      exact hlog
    have h1 : 2 ^ k ≤ 2 ^ sh := Nat.pow_le_pow_right (by norm_num) (by omega)
    calc 2 ^ k ≤ 1 * 2 ^ sh := by omega
      _ ≤ n / d / 2 ^ sh * 2 ^ sh := Nat.mul_le_mul_right _ (by omega)

theorem roundQuot_dvd {n d j : Nat} (hd : 0 < d) (h : 2 ^ j * d ∣ n) :
    2 ^ j ∣ roundQuot n d := by
  unfold roundQuot
  generalize ilog2 (n / d) - 23 = sh
  by_cases hle : sh ≤ j
  · obtain ⟨c, hc⟩ := h
    have hsplit : 2 ^ j = 2 ^ (j - sh) * 2 ^ sh := by
      rw [← Nat.pow_add]
      congr 1
      omega
    have hn : n = (2 ^ (j - sh) * c) * (d * 2 ^ sh) := by
      rw [hc, hsplit]
      ring
    have hpos : 0 < 2 ^ sh := Nat.pos_pow_of_pos _ (by norm_num)
    have hD : 0 < d * 2 ^ sh := Nat.mul_pos hd hpos
    have hmod : n % (d * 2 ^ sh) = 0 := by
      rw [hn]
      exact Nat.mul_mod_left _ _
    have hq : n / (d * 2 ^ sh) = 2 ^ (j - sh) * c := by
      rw [hn]
      exact Nat.mul_div_cancel _ hD
    rw [roundAt_exact hd hmod, hq, hsplit]
    exact ⟨c, by ring⟩
  · have hdvd : 2 ^ j ∣ 2 ^ sh := Nat.pow_dvd_pow 2 (by omega)
    unfold roundAt
    exact Dvd.dvd.mul_left hdvd _

/-! ## Finiteness along `random_normal` -/

theorem ofRounded_of_lt (s : Bool) {m : Nat} (h : m < 2 ^ 128 * 2 ^ 149) :
    F32.ofRounded s m = F32.fin s m := by
  simp only [F32.ofRounded, h, if_true]

theorem two_pow_regroup {a b c d : Nat} (h : a + b = c + d) :
    2 ^ a * 2 ^ b = 2 ^ c * 2 ^ d := by
  rw [← Nat.pow_add, ← Nat.pow_add, h]

theorem three_pow_regroup {a b c d e : Nat} (h : a + b = c + d + e) :
    2 ^ a * 2 ^ b = 2 ^ c * 2 ^ d * 2 ^ e := by
  rw [← Nat.pow_add, ← Nat.pow_add, ← Nat.pow_add, h]

theorem pow_lt_mul_pow {k a b : Nat} (hk : k < a + b) : 2 ^ k < 2 ^ a * 2 ^ b := by
  rw [← Nat.pow_add]
  exact Nat.pow_lt_pow_right (by norm_num) hk

theorem ofRounded_of_le {s : Bool} {m k : Nat} (hk : k < 128 + 149) (h : m ≤ 2 ^ k) :
    F32.ofRounded s m = F32.fin s m :=
  ofRounded_of_lt s (lt_of_le_of_lt h (pow_lt_mul_pow hk))

/-- The coordinate `2.0f * u - 1.0f` of a uniform value `u = n / 2^53 <= 1`. -/
theorem unitCoord_of_uniform {n : Nat} (hn : n ≤ 2 ^ 53) :
    unitCoord (F32.sub (F32.mul (F32.fin false (2 ^ 150)) (F32.fin false (n * 2 ^ 96)))
      (F32.fin false (2 ^ 149))) := by
  have hle : roundQuot (2 ^ 150 * (n * 2 ^ 96)) (2 ^ 149) ≤ 2 ^ 150 :=
    roundQuot_le_pow (by norm_num) (by omega)
  have hdvd : 2 ^ 97 ∣ roundQuot (2 ^ 150 * (n * 2 ^ 96)) (2 ^ 149) :=
    roundQuot_dvd (by norm_num) ⟨n, by ring⟩
  have hmul : F32.mul (F32.fin false (2 ^ 150)) (F32.fin false (n * 2 ^ 96)) =
      F32.fin false (roundQuot (2 ^ 150 * (n * 2 ^ 96)) (2 ^ 149)) := by
    show F32.ofRounded (xor false false) _ = _
    exact ofRounded_of_le (by norm_num) hle
  rw [hmul]
  generalize roundQuot (2 ^ 150 * (n * 2 ^ 96)) (2 ^ 149) = mt at hle hdvd
  have h149 : (2 : Nat) ^ 97 ∣ 2 ^ 149 := Nat.pow_dvd_pow 2 (by norm_num)
  simp only [F32.sub, F32.neg, F32.add, Bool.not_false]
  rw [if_neg (by decide)]
  split_ifs with h1 h2
  · have hb : roundQuot (mt - 2 ^ 149) 1 ≤ 2 ^ 149 :=
      roundQuot_le_pow (by norm_num) (by omega)
    have hd : 2 ^ 97 ∣ roundQuot (mt - 2 ^ 149) 1 :=
      roundQuot_dvd (by norm_num) (by rw [Nat.mul_one]; exact Nat.dvd_sub' hdvd h149)
    exact ⟨false, _, ofRounded_of_le (by norm_num) hb, hb, hd⟩
  · have hb : roundQuot (2 ^ 149 - mt) 1 ≤ 2 ^ 149 :=
      roundQuot_le_pow (by norm_num) (by omega)
    have hd : 2 ^ 97 ∣ roundQuot (2 ^ 149 - mt) 1 :=
      roundQuot_dvd (by norm_num) (by rw [Nat.mul_one]; exact Nat.dvd_sub' h149 hdvd)
    exact ⟨true, _, ofRounded_of_le (by norm_num) hb, hb, hd⟩
  · exact ⟨false, 0, rfl, Nat.zero_le _, Nat.dvd_zero _⟩

/-- The square of a coordinate is `+0.0f` or lies between `2^-104` and 1. -/
theorem mul_self_of_unitCoord {x : F32} (hx : unitCoord x) :
    ∃ a, F32.mul x x = F32.fin false a ∧ a ≤ 2 ^ 149 ∧ (a = 0 ∨ 2 ^ 45 ≤ a) := by
  obtain ⟨s, m, rfl, hm, hdvd⟩ := hx
  have hle : roundQuot (m * m) (2 ^ 149) ≤ 2 ^ 149 :=
    roundQuot_le_pow (by norm_num) (Nat.mul_le_mul hm hm)
  refine ⟨roundQuot (m * m) (2 ^ 149), ?_, hle, ?_⟩
  · show F32.ofRounded (xor s s) _ = _
    rw [Bool.xor_self]
    exact ofRounded_of_le (by norm_num) hle
  · by_cases h0 : m = 0
    · left
      rw [h0]
      exact roundQuot_zero (by norm_num)
    · right
      have hge : 2 ^ 97 ≤ m := Nat.le_of_dvd (Nat.pos_of_ne_zero h0) hdvd
      apply roundQuot_ge_pow (by norm_num)
      calc 2 ^ 45 * 2 ^ 149 = 2 ^ 97 * 2 ^ 97 := by norm_num
        _ ≤ m * m := Nat.mul_le_mul hge hge

/-- The sum of two such squares is `+0.0f` or lies between `2^-104` and 2. -/
theorem add_squares {a b : Nat} (ha : a ≤ 2 ^ 149) (hb : b ≤ 2 ^ 149)
    (ha0 : a = 0 ∨ 2 ^ 45 ≤ a) (hb0 : b = 0 ∨ 2 ^ 45 ≤ b) :
    ∃ c, F32.add (F32.fin false a) (F32.fin false b) = F32.fin false c ∧
      (c = 0 ∨ 2 ^ 45 ≤ c) := by
  have hle : roundQuot (a + b) 1 ≤ 2 ^ 150 := roundQuot_le_pow (by norm_num) (by omega)
  refine ⟨roundQuot (a + b) 1, ?_, ?_⟩
  · simp only [F32.add, if_true]
    exact ofRounded_of_le (by norm_num) hle
  · by_cases h0 : a + b = 0
    · left
      rw [h0]
      exact roundQuot_zero (by norm_num)
    · right
      exact roundQuot_ge_pow (by norm_num) (by omega)

/-- A coordinate times a finite factor of magnitude at most `2^64` is finite. -/
theorem mul_of_unitCoord {x : F32} (hx : unitCoord x) {t : Bool} {k : Nat}
    (hk : k ≤ 2 ^ 213) : ∃ s m, F32.mul x (F32.fin t k) = F32.fin s m ∧ m ≤ 2 ^ 213 := by
  obtain ⟨s, m, rfl, hm, _⟩ := hx
  have hle : roundQuot (m * k) (2 ^ 149) ≤ 2 ^ 213 := by
    apply roundQuot_le_pow (by norm_num)
    calc m * k ≤ 2 ^ 149 * 2 ^ 213 := Nat.mul_le_mul hm hk
      _ = 2 ^ 213 * 2 ^ 149 := by norm_num
  exact ⟨xor s t, _, ofRounded_of_le (by norm_num) hle, hle⟩

/-- A finite value times a zero is a zero. -/
theorem mul_zero_right (s t : Bool) (m : Nat) :
    F32.mul (F32.fin s m) (F32.fin t 0) = F32.fin (xor s t) 0 := by
  show F32.ofRounded (xor s t) (roundQuot (m * 0) (2 ^ 149)) = _
  rw [Nat.mul_zero, roundQuot_zero (by norm_num)]
  exact ofRounded_of_le (k := 0) (by norm_num) (by norm_num)

/-- A zero plus a `float` is that `float`, up to the sign of a zero. -/
theorem zero_add_same (s : Bool) {mean : F32} (hmean : mean.valid) :
    F32.same (F32.add (F32.fin s 0) mean) mean ∧
    (mean ≠ F32.nan → F32.eq (F32.add (F32.fin s 0) mean) mean = true) := by
  cases mean with
  | nan => exact ⟨Or.inl rfl, fun h => absurd rfl h⟩
  | inf t => exact ⟨Or.inl rfl, fun _ => by simp [F32.add, F32.eq]⟩
  | fin t m =>
    obtain ⟨hlt, hround⟩ := hmean
    have key : F32.add (F32.fin s 0) (F32.fin t m) = F32.fin t m ∨
        (m = 0 ∧ F32.add (F32.fin s 0) (F32.fin t m) = F32.fin false 0) := by
      simp only [F32.add]
      split_ifs with h1 h2 h3
      · left
        rw [Nat.zero_add, hround, h1]
        exact ofRounded_of_lt t hlt
      · omega
      · left
        rw [Nat.sub_zero, hround]
        exact ofRounded_of_lt t hlt
      · right
        exact ⟨by omega, rfl⟩
    rcases key with h | ⟨h0, h⟩
    · rw [h]
      exact ⟨Or.inl rfl, fun _ => by simp [F32.eq]⟩
    · rw [h, h0]
      exact ⟨Or.inr ⟨rfl, rfl⟩, fun _ => by simp [F32.eq, F32.key]⟩

theorem random_float_fst_le {F : Type} (env : SeedEnv) (g : Globals F) :
    (random_float env g).1 ≤ 2 ^ 53 := by
  rw [random_float_fst]
  exact random_float_le_one _ (xorshift128p_next_fst_lt _)

/-- A point accepted by the polar loop: both coordinates are finite, at most 1
in magnitude, and `r` is a finite positive value with `2^-104 <= r < 1`. -/
theorem polarLoop_accept (logf sqrtf : F32 → F32) (env : SeedEnv) (fuel : Nat) :
    ∀ (g : Globals F32) (x y r : F32) (g1 : Globals F32),
      polarLoop (ieeeOps logf sqrtf) env fuel g = some (x, y, r, g1) →
      unitCoord x ∧ unitCoord y ∧ ∃ mr, r = F32.fin false mr ∧ 2 ^ 45 ≤ mr ∧ mr < 2 ^ 149 := by
  induction fuel with
  | zero =>
    intro g x y r g1 h
    simp [polarLoop] at h
  | succ fuel ih =>
    intro g x y r g1 h
    simp only [polarLoop] at h
    split_ifs at h with hc
    · exact ih _ x y r g1 h
    · simp only [Option.some.injEq, Prod.mk.injEq] at h
      obtain ⟨hx, hy, hr, _⟩ := h
      have cx := unitCoord_of_uniform (random_float_fst_le env g)
      have cy := unitCoord_of_uniform (random_float_fst_le env (random_float env g).2)
      have ex : x = F32.sub (F32.mul (F32.fin false (2 ^ 150))
          (F32.fin false ((random_float env g).1 * 2 ^ 96))) (F32.fin false (2 ^ 149)) :=
        hx.symm
      have ey : y = F32.sub (F32.mul (F32.fin false (2 ^ 150))
          (F32.fin false ((random_float env (random_float env g).2).1 * 2 ^ 96)))
          (F32.fin false (2 ^ 149)) := hy.symm
      rw [← ex] at cx
      rw [← ey] at cy
      obtain ⟨a, hxx, ha, ha0⟩ := mul_self_of_unitCoord cx
      obtain ⟨b, hyy, hb, hb0⟩ := mul_self_of_unitCoord cy
      obtain ⟨c, hsum, hc0⟩ := add_squares ha hb ha0 hb0
      have er : r = F32.add (F32.mul x x) (F32.mul y y) := by
        rw [ex, ey]
        exact hr.symm
      rw [hxx, hyy, hsum] at er
      have hcond : ¬ ((F32.ge r (F32.fin false (2 ^ 149)) || F32.eq r (F32.fin false 0)) = true) := by
        rw [← hr]
        exact hc
      rw [er] at hcond
      simp only [F32.ge, F32.eq, F32.key, Bool.or_eq_true, decide_eq_true_eq, not_or] at hcond
      refine ⟨cx, cy, c, er, ?_, ?_⟩
      · rcases hc0 with h0 | h0
        · exfalso
          apply hcond.2
          rw [h0]
        · exact h0
      · have := hcond.1
        simp only [Bool.false_eq_true, if_false] at this
        omega

/-- The factor `d = sqrtf(-2.0f * logf(r) / r)` of an accepted point is finite
and at most `2^64` in magnitude. -/
theorem polarScale_finite {logf sqrtf : F32 → F32} (hlibm : LibmOk logf sqrtf) {mr : Nat}
    (h1 : 2 ^ 45 ≤ mr) (h2 : mr < 2 ^ 149) :
    ∃ t k, polarScale (ieeeOps logf sqrtf) (F32.fin false mr) = F32.fin t k ∧ k ≤ 2 ^ 213 := by
  obtain ⟨s, k, hL, hk, hs⟩ := hlibm.1 mr (by omega) h2
  have hmr : mr ≠ 0 := by omega
  have hma : roundQuot (2 ^ 150 * k) (2 ^ 149) ≤ 2 ^ 157 :=
    roundQuot_le_pow (by norm_num) (by omega)
  have hnum : F32.mul (F32.neg (F32.fin false (2 ^ 150))) (logf (F32.fin false mr)) =
      F32.fin (xor true s) (roundQuot (2 ^ 150 * k) (2 ^ 149)) := by
    rw [hL]
    show F32.ofRounded (xor true s) _ = _
    exact ofRounded_of_le (by norm_num) hma
  have hma0 : k = 0 → roundQuot (2 ^ 150 * k) (2 ^ 149) = 0 := by
    intro h0
    rw [h0, Nat.mul_zero]
    exact roundQuot_zero (by norm_num)
  generalize roundQuot (2 ^ 150 * k) (2 ^ 149) = ma at hma hnum hma0
  have hq : roundQuot (ma * 2 ^ 149) mr ≤ 2 ^ 112 * 2 ^ 149 := by
    rw [← Nat.pow_add]
    apply roundQuot_le_pow (by omega)
    calc ma * 2 ^ 149 ≤ 2 ^ 157 * 2 ^ 149 := Nat.mul_le_mul_right _ hma
      _ = 2 ^ (112 + 149) * 2 ^ 45 := two_pow_regroup (by norm_num)
      _ ≤ 2 ^ (112 + 149) * mr := Nat.mul_le_mul_left _ h1
  have hqlt : roundQuot (ma * 2 ^ 149) mr < 2 ^ 128 * 2 ^ 149 :=
    lt_of_le_of_lt hq (Nat.mul_lt_mul_of_pos_right (by norm_num) (by norm_num))
  have hquot : F32.div (F32.fin (xor true s) ma) (F32.fin false mr) =
      F32.fin (xor (xor true s) false) (roundQuot (ma * 2 ^ 149) mr) := by
    simp only [F32.div, hmr, if_false]
    exact ofRounded_of_lt _ hqlt
  have hsign : xor (xor true s) false = false ∨ roundQuot (ma * 2 ^ 149) mr = 0 := by
    rcases hs with hs | hs
    · left
      rw [hs]
      rfl
    · right
      rw [hma0 hs, Nat.zero_mul]
      exact roundQuot_zero (by omega)
  obtain ⟨t, kd, hd, hkd⟩ := hlibm.2 _ _ hqlt hsign
  refine ⟨t, kd, ?_, hkd⟩
  show sqrtf (F32.div (F32.mul (F32.neg (F32.fin false (2 ^ 150))) (logf (F32.fin false mr)))
    (F32.fin false mr)) = _
  rw [hnum, hquot, hd]

theorem finite_of_le {s : Bool} {m k : Nat} (hk : k < 128 + 149) (h : m ≤ 2 ^ k) :
    (F32.fin s m).finite :=
  lt_of_le_of_lt h (pow_lt_mul_pow hk)

/-- At program start the cache is empty. -/
theorem cacheFinite_initial (ops : FloatOps F32) : cacheFinite (initialGlobals ops) :=
  Or.inl rfl

/-- The cache stays empty or finite under `random_float`, `random_int` and
`random_int_high_precision`, which do not write it. -/
theorem cacheFinite_frame (fuel : Nat) (env : SeedEnv) (g : Globals F32) (a b : Int)
    (h : cacheFinite g) :
    cacheFinite (random_float env g).2 ∧ cacheFinite (random_int env g a b).2 ∧
    ∀ res, random_int_high_precision fuel env g a b = some res → cacheFinite res.2 := by
  refine ⟨h, ?_, ?_⟩
  · rw [random_int_snd]
    exact h
  · intro res hres
    obtain ⟨_, h1, h2⟩ := hp_frame fuel env g a b res hres
    unfold cacheFinite at h ⊢
    rw [h1, h2]
    exact h

/-- Every call of `random_normal` that returns, with any arguments, leaves the
cache empty or holding a finite spare. -/
theorem cacheFinite_random_normal {logf sqrtf : F32 → F32} (hlibm : LibmOk logf sqrtf)
    (fuel : Nat) (env : SeedEnv) (g : Globals F32) (mean stddev : F32) (res : F32 × Globals F32)
    (hret : random_normal (ieeeOps logf sqrtf) fuel env g mean stddev = some res) :
    cacheFinite res.2 := by
  unfold random_normal at hret
  split_ifs at hret with hflag
  · cases hloop : polarLoop (ieeeOps logf sqrtf) env fuel g with
    | none => rw [hloop] at hret; simp at hret
    | some p =>
      obtain ⟨x, y, r, g1⟩ := p
      rw [hloop] at hret
      simp only [Option.some.injEq] at hret
      subst hret
      obtain ⟨_, cy, mr, hr, h1, h2⟩ := polarLoop_accept logf sqrtf env fuel g x y r g1 hloop
      obtain ⟨t, k, hd, hk⟩ := polarScale_finite hlibm h1 h2
      obtain ⟨s, m, hm, hmle⟩ := mul_of_unitCoord cy (t := t) hk
      right
      show (F32.mul y (polarScale (ieeeOps logf sqrtf) r)).finite
      rw [hr, hd, hm]
      exact finite_of_le (by norm_num) hmle
  · simp only [Option.some.injEq] at hret
    subst hret
    exact Or.inl rfl

/-- C9: `random_normal(mean, 0)` returns `mean`. On binary32 arithmetic, with
`logf` and `sqrtf` returning finite values in their ranges, every call with
`stddev` a zero that returns, from a storage whose cache is empty or holds a
finite spare (every storage a program reaches), returns `mean`: the identical
datum (also for an infinite or not-a-number `mean`), a zero for a zero `mean`,
and a value that compares `==` to every `mean` that is a number. This holds
on the cache-miss path `x*d*0 + mean` and on the cache-hit path `n2*0 + mean`,
and the call leaves the cache empty or holding a finite spare again. -/
theorem normal_zero_stddev {logf sqrtf : F32 → F32} (hlibm : LibmOk logf sqrtf)
    (fuel : Nat) (env : SeedEnv) (g : Globals F32) (mean stddev : F32)
    (hmean : mean.valid) (hsd : stddev.isZero) (hcache : cacheFinite g)
    (res : F32 × Globals F32)
    (hret : random_normal (ieeeOps logf sqrtf) fuel env g mean stddev = some res) :
    F32.same res.1 mean ∧ (mean ≠ F32.nan → F32.eq res.1 mean = true) ∧
    cacheFinite res.2 := by
  have hinv := cacheFinite_random_normal hlibm fuel env g mean stddev res hret
  suffices hmain : F32.same res.1 mean ∧ (mean ≠ F32.nan → F32.eq res.1 mean = true) from
    ⟨hmain.1, hmain.2, hinv⟩
  clear hinv
  obtain ⟨s0, hs0⟩ : ∃ s0, stddev = F32.fin s0 0 := by
    cases stddev with
    | nan => exact absurd hsd (by simp [F32.isZero])
    | inf t => exact absurd hsd (by simp [F32.isZero])
    | fin t m =>
      have : m = 0 := hsd
      exact ⟨t, by rw [this]⟩
  subst hs0
  unfold random_normal at hret
  split_ifs at hret with hflag
  · cases hloop : polarLoop (ieeeOps logf sqrtf) env fuel g with
    | none => rw [hloop] at hret; simp at hret
    | some p =>
      obtain ⟨x, y, r, g1⟩ := p
      rw [hloop] at hret
      simp only [Option.some.injEq] at hret
      subst hret
      obtain ⟨cx, _, mr, hr, h1, h2⟩ := polarLoop_accept logf sqrtf env fuel g x y r g1 hloop
      obtain ⟨t, k, hd, hk⟩ := polarScale_finite hlibm h1 h2
      obtain ⟨s, m, hm, _⟩ := mul_of_unitCoord cx (t := t) hk
      show F32.same (F32.add (F32.mul (F32.mul x (polarScale (ieeeOps logf sqrtf) r))
          (F32.fin s0 0)) mean) mean ∧
        (mean ≠ F32.nan → F32.eq (F32.add (F32.mul (F32.mul x
          (polarScale (ieeeOps logf sqrtf) r)) (F32.fin s0 0)) mean) mean = true)
      rw [hr, hd, hm, mul_zero_right]
      exact zero_add_same _ hmean
  · simp only [Option.some.injEq] at hret
    subst hret
    rcases hcache with h0 | hfin
    · exact absurd h0 hflag
    · show F32.same (F32.add (F32.mul g.n2 (F32.fin s0 0)) mean) mean ∧
        (mean ≠ F32.nan → F32.eq (F32.add (F32.mul g.n2 (F32.fin s0 0)) mean) mean = true)
      cases hn2 : g.n2 with
      | nan => rw [hn2] at hfin; exact absurd hfin (by simp [F32.finite])
      | inf t => rw [hn2] at hfin; exact absurd hfin (by simp [F32.finite])
      | fin t m =>
        rw [mul_zero_right]
        exact zero_add_same _ hmean

/-! ## The stand-ins for the library functions -/

theorem sqrtStep_sq {n r : Nat} (i : Nat) (h : r * r ≤ n) :
    sqrtStep n r i * sqrtStep n r i ≤ n := by
  unfold sqrtStep
  split_ifs with hc
  · exact hc
  · exact h

theorem isqrtBits_sq (bits : Nat) : ∀ {n r : Nat}, r * r ≤ n →
    isqrtBits bits n r * isqrtBits bits n r ≤ n := by
  induction bits with
  | zero => intro n r h; exact h
  | succ bits ih => intro n r h; exact ih (sqrtStep_sq bits h)

theorem isqrtBits_le {m : Nat} (hm : m < 2 ^ 128 * 2 ^ 149) :
    isqrtBits 214 (m * 2 ^ 149) 0 ≤ 2 ^ 213 := by
  have hsq := isqrtBits_sq 214 (n := m * 2 ^ 149) (r := 0) (Nat.zero_le _)
  by_contra hcon
  have hlt : 2 ^ 213 < isqrtBits 214 (m * 2 ^ 149) 0 := by omega
  have h1 : 2 ^ 213 * 2 ^ 213 < isqrtBits 214 (m * 2 ^ 149) 0 * isqrtBits 214 (m * 2 ^ 149) 0 :=
    Nat.mul_lt_mul'' hlt hlt
  have h2 : m * 2 ^ 149 < 2 ^ 128 * 2 ^ 149 * 2 ^ 149 :=
    Nat.mul_lt_mul_of_pos_right hm (by norm_num)
  have h3 : 2 ^ 213 * 2 ^ 213 = 2 ^ 128 * 2 ^ 149 * 2 ^ 149 :=
    three_pow_regroup (by norm_num)
  omega

/-- The stand-ins `logfModel` and `sqrtfModel` stay in the ranges assumed of
the library. -/
theorem libmModel_ok : LibmOk logfModel sqrtfModel := by
  constructor
  · intro m h0 h1
    have hb : roundQuot ((149 - ilog2 m) * (11629080 * 2 ^ 125)) 1 ≤ 2 ^ 156 := by
      apply roundQuot_le_pow (by norm_num)
      have : 149 - ilog2 m ≤ 149 := Nat.sub_le _ _
      calc (149 - ilog2 m) * (11629080 * 2 ^ 125) ≤ 149 * (11629080 * 2 ^ 125) :=
            Nat.mul_le_mul_right _ this
        _ ≤ 2 ^ 156 * 1 := by norm_num
    refine ⟨true, _, ?_, hb, Or.inl rfl⟩
    simp only [logfModel, h0, h1, and_self, if_true]
    exact ofRounded_of_le (by norm_num) hb
  · intro s m hm hs
    by_cases h0 : m = 0
    · exact ⟨s, 0, by simp [sqrtfModel, h0], Nat.zero_le _⟩
    · have hsf : s = false := by
        rcases hs with h | h
        · exact h
        · exact absurd h h0
      subst hsf
      have hb : roundQuot (isqrtBits 214 (m * 2 ^ 149) 0) 1 ≤ 2 ^ 213 :=
        roundQuot_le_pow (by norm_num) (by rw [Nat.mul_one]; exact isqrtBits_le hm)
      refine ⟨false, _, ?_, hb⟩
      simp only [sqrtfModel, h0, if_false, Bool.false_eq_true]
      exact ofRounded_of_le (by norm_num) hb

set_option maxRecDepth 100000 in
/-- Witness of C9: the first call `random_normal(5.0f, 0.0f)` of a program, run
on binary32 arithmetic with the stand-ins for `logf` and `sqrtf`; the polar
loop rejects its first point and accepts the second, and the call returns
`5.0f`; the next call, which takes the cached spare, returns `5.0f` too. -/
theorem normal_zero_stddev_witness :
    LibmOk logfModel sqrtfModel ∧
    (F32.fin false (5 * 2 ^ 149)).valid ∧ (F32.fin false 0).isZero ∧
    cacheFinite (initialGlobals (ieeeOps logfModel sqrtfModel)) ∧
    random_normal (ieeeOps logfModel sqrtfModel) 3
      { time := 1793337600, counter := 21828, addr := 140725882410764 }
      (initialGlobals (ieeeOps logfModel sqrtfModel)) (F32.fin false (5 * 2 ^ 149))
      (F32.fin false 0) =
      some (F32.fin false (5 * 2 ^ 149),
        { rf := { state := { state0 := 4195051138600411867, state1 := 12094607012408128564 },
                  seeded := 1 },
          n2 := F32.fin false 759348353631472013976259423318220984243191808, n2_cached := 1,
          hp := { state := { state0 := 0, state1 := 0 }, seeded := 0 } }) ∧
    F32.eq (F32.fin false (5 * 2 ^ 149)) (F32.fin false (5 * 2 ^ 149)) = true ∧
    random_normal (ieeeOps logfModel sqrtfModel) 0
      { time := 1793337600, counter := 21828, addr := 140725882410764 }
      { rf := { state := { state0 := 4195051138600411867, state1 := 12094607012408128564 },
                seeded := 1 },
        n2 := F32.fin false 759348353631472013976259423318220984243191808, n2_cached := 1,
        hp := { state := { state0 := 0, state1 := 0 }, seeded := 0 } }
      (F32.fin false (5 * 2 ^ 149)) (F32.fin false 0) =
      some (F32.fin false (5 * 2 ^ 149),
      { rf := { state := { state0 := 4195051138600411867, state1 := 12094607012408128564 },
                seeded := 1 },
        n2 := F32.fin false 759348353631472013976259423318220984243191808, n2_cached := 0,
        hp := { state := { state0 := 0, state1 := 0 }, seeded := 0 } }) ∧
    F32.same (F32.fin false (5 * 2 ^ 149)) (F32.fin false (5 * 2 ^ 149)) :=
  ⟨libmModel_ok, ⟨by norm_num, by decide⟩, rfl, cacheFinite_initial _, by decide,
    (normal_zero_stddev libmModel_ok 3
      { time := 1793337600, counter := 21828, addr := 140725882410764 }
      (initialGlobals (ieeeOps logfModel sqrtfModel)) (F32.fin false (5 * 2 ^ 149))
      (F32.fin false 0) ⟨by norm_num, by decide⟩ rfl (cacheFinite_initial _)
      (F32.fin false (5 * 2 ^ 149),
        { rf := { state := { state0 := 4195051138600411867, state1 := 12094607012408128564 },
                  seeded := 1 },
          n2 := F32.fin false 759348353631472013976259423318220984243191808, n2_cached := 1,
          hp := { state := { state0 := 0, state1 := 0 }, seeded := 0 } })
      (by decide)).2.1 (by decide),
    by decide,
    (normal_zero_stddev libmModel_ok 0
      { time := 1793337600, counter := 21828, addr := 140725882410764 }
      { rf := { state := { state0 := 4195051138600411867, state1 := 12094607012408128564 },
                seeded := 1 },
        n2 := F32.fin false 759348353631472013976259423318220984243191808, n2_cached := 1,
        hp := { state := { state0 := 0, state1 := 0 }, seeded := 0 } }
      (F32.fin false (5 * 2 ^ 149)) (F32.fin false 0) ⟨by norm_num, by decide⟩ rfl
      (Or.inr (by show (_ : Nat) < _; norm_num))
      (F32.fin false (5 * 2 ^ 149),
      { rf := { state := { state0 := 4195051138600411867, state1 := 12094607012408128564 },
                seeded := 1 },
        n2 := F32.fin false 759348353631472013976259423318220984243191808, n2_cached := 0,
        hp := { state := { state0 := 0, state1 := 0 }, seeded := 0 } })
      (by decide)).1⟩

end RandomC
